import Mathlib

/-!
Verification of the compiled-function core of the casadi symbolic framework
(files src/casadi/core/function/mx_function_internal.cpp and
src/casadi/core/function/sx_function_internal.cpp), as a shallow embedding.

Sparsity handles are interned descriptors compared by address; we model a
handle as a natural number, so pointer identity is equality of numbers.
Expression nodes are reference counted and shared; where only node identity
matters we model a node by its id.
-/

namespace Casadi

/-- Sparsity handle: pointer identity is modelled as equality of ids. -/
abbrev Sp := Nat

/-! ## Construction (MXFunctionInternal / SXFunctionInternal constructors)

`MXFunctionInternal::MXFunctionInternal` walks the input expressions: a
non-symbolic input that is empty is replaced by a fresh symbolic primitive
named "r"++index with the same sparsity; a non-symbolic non-empty input
raises an error.  Then it marks each input node's temp and errors if a node
is seen twice (duplicate inputs).  `SXFunctionInternal::SXFunctionInternal`
checks element-wise duplicates and then asserts that the output list is
non-empty.  -/

/-- Identity of an expression node.  Fresh symbols made inside the MX
constructor can never be pointer-identical to pre-existing nodes, nor to
each other (they come from distinct `MX::sym` calls); we keep the two
address spaces apart with a sum. -/
abbrev NodeId := Nat ⊕ Nat

/-- Model of an `MX` expression handle as the MX constructor inspects it:
its node identity, whether it is a symbolic primitive, whether it is an
empty matrix, its sparsity and (for symbols) its name. -/
structure MXIn where
  nodeId : NodeId
  symbolic : Bool
  empty : Bool
  sp : Sp
  name : String
  deriving DecidableEq, Repr

/-- Errors of function construction. -/
inductive CtorErr where
  | nonSymbolicInput
  | duplicateInput
  | emptyOutputList
  deriving DecidableEq, Repr

/-- The temp-marking pass of both constructors: inputs are pairwise
independent iff no node id occurs twice in the flattened node list. -/
def hasDuplicates (ids : List NodeId) : Bool :=
  ¬ ids.Nodup

/-- First loop of `MXFunctionInternal::MXFunctionInternal` (iterating with
index `ind`): replace a non-symbolic empty input by `MX::sym("r"++ind,
sparsity)`, fail on a non-symbolic non-empty input. -/
def mxFixInput (ind : Nat) (x : MXIn) : Except CtorErr MXIn :=
  if x.symbolic then .ok x
  else if x.empty then
    .ok { nodeId := Sum.inr ind, symbolic := true, empty := x.empty,
          sp := x.sp, name := "r" ++ toString ind }
  else .error .nonSymbolicInput

/-- The whole first loop, with the running index. -/
def mxFixInputs : Nat → List MXIn → Except CtorErr (List MXIn)
  | _, [] => .ok []
  | ind, x :: xs => do
      let y ← mxFixInput ind x
      let ys ← mxFixInputs (ind + 1) xs
      .ok (y :: ys)

/-- `MXFunctionInternal::MXFunctionInternal` (outputs are opaque here; the
MX constructor never inspects them).  Note there is no check at all on the
output list. -/
def mkMXFunction (inputv : List MXIn) (outputv : List Unit) :
    Except CtorErr (List MXIn × List Unit) := do
  let inputv' ← mxFixInputs 0 inputv
  if hasDuplicates (inputv'.map MXIn.nodeId) then .error .duplicateInput
  else .ok (inputv', outputv)

/-- `SXFunctionInternal::SXFunctionInternal`: inputs are matrices of scalar
elements; the duplicate check is element-wise over all inputs, then
`casadi_assert(!outputv_.empty())`. -/
def mkSXFunction (inputv : List (List NodeId)) (outputv : List Unit) :
    Except CtorErr (List (List NodeId) × List Unit) :=
  if hasDuplicates inputv.flatten then .error .duplicateInput
  else if outputv.isEmpty then .error .emptyOutputList
  else .ok (inputv, outputv)

/-! ## Sparsity-propagation pre-pass (`spInit`)

`MXFunctionInternal::spInit(bool fwd)` fills the bit-vector view of every
work-array slot with zero regardless of the direction.
`SXFunctionInternal::spInit(bool fwd)` zeroes the work array only when
`fwd` is false. -/

/-- Bit-mask word. -/
abbrev BVec := Nat

/-- `MXFunctionInternal::spInit`: the `fwd` argument is ignored; every slot
(a matrix, a vector of words) is zero-filled. -/
def mxSpInit (_fwd : Bool) (work : List (List BVec)) : List (List BVec) :=
  work.map (fun slot => slot.map (fun _ => 0))

/-- `SXFunctionInternal::spInit`: `if (!fwd) fill_n(iwork, work_.size(), 0)`. -/
def sxSpInit (fwd : Bool) (work : List BVec) : List BVec :=
  if fwd then work else work.map (fun _ => 0)

/-! ## Numeric evaluation (`evaluate`)

Both `MXFunctionInternal::evaluate` and `SXFunctionInternal::evaluate`
first test `free_vars_` and raise an error before touching the tape; with
no free variables they run every tape record in order.  Operator kernels
(`evaluateD`, `CASADI_MATH_FUN_BUILTIN`) are external collaborators and are
modelled as oracles. -/

/-- Evaluation-time errors. -/
inductive EvalErr where
  | freeVariable
  deriving DecidableEq, Repr

/-- Operation tag of a compiled MX tape record. -/
inductive MOp where
  | input
  | output
  | parameter
  | call
  | other
  deriving DecidableEq, Repr

/-- A compiled MX tape record: work-slot indices of arguments and results
(`-1` is the null sentinel; for `OP_INPUT` the single `arg` is the input
index, for `OP_OUTPUT` the single `res` is the output index). -/
structure MAlgEl where
  op : MOp
  arg : List Int
  res : List Int
  deriving DecidableEq, Repr

/-- A compiled MX function as the numeric evaluator sees it. -/
structure MXNumCtx (V : Type) where
  freeVars : List NodeId
  alg : List MAlgEl
  worksize : Nat
  nout : Nat
  dflt : V
  /-- numeric kernel of the operator node of record `i`
  (`it->data->evaluateD`): given the argument slot values, produce the
  values written through the result pointers. -/
  kernel : Nat → List (Option V) → List (Option V)

/-- Work array and output buffers during a numeric MX evaluation. -/
structure MXNumState (V : Type) where
  work : List V
  outs : List (Option V)

/-- One record of the numeric MX tape loop (`MXFunctionInternal::evaluate`,
the body of the `for` over `algorithm_`): `OP_INPUT` copies the declared
input buffer into the work slot, `OP_OUTPUT` copies a work slot into the
declared output buffer, everything else calls the node's numeric kernel
with pointers into the work array. -/
def mxNumStep (f : MXNumCtx V) (inputs : List V) (s : MXNumState V)
    (i : Nat) (e : MAlgEl) : MXNumState V :=
  match e.op with
  | .input =>
      { s with work := s.work.set (e.res.headD (-1)).toNat
                 (inputs.getD (e.arg.headD (-1)).toNat f.dflt) }
  | .output =>
      { s with outs := s.outs.set (e.res.headD (-1)).toNat
                 (some (s.work.getD (e.arg.headD (-1)).toNat f.dflt)) }
  | _ =>
      let args := e.arg.map (fun a => if a < 0 then none
        else some (s.work.getD a.toNat f.dflt))
      let res := f.kernel i args
      { s with work :=
          (List.range e.res.length).foldl (fun w c =>
            match e.res.getD c (-1), res.getD c none with
            | r, some v => if r < 0 then w else w.set r.toNat v
            | _, none => w) s.work }

/-- Run the whole numeric MX tape (records carry their algorithm index). -/
def mxRunTape (f : MXNumCtx V) (inputs : List V) : MXNumState V :=
  (f.alg.enum.foldl (fun s ie => mxNumStep f inputs s ie.1 ie.2)
    { work := List.replicate f.worksize f.dflt,
      outs := List.replicate f.nout none })

/-- `MXFunctionInternal::evaluate`: raise `FREE_VARIABLE` before executing
any tape record if the free-variable list is non-empty, otherwise run the
whole tape and return the output buffers. -/
def mxEvaluate (f : MXNumCtx V) (inputs : List V) :
    Except EvalErr (List (Option V)) :=
  if f.freeVars ≠ [] then .error .freeVariable
  else .ok (mxRunTape f inputs).outs

/-- A compiled SX tape record: the flat triple `(op, i0, i1, i2)` plus the
scalar literal `d`. -/
inductive SXOp where
  | const
  | input
  | output
  | parameter
  | builtin (code : Nat)
  deriving DecidableEq, Repr

/-- One SX algorithm element. -/
structure SAlgEl (V : Type) where
  op : SXOp
  i0 : Nat
  i1 : Nat
  i2 : Nat
  d : V
  deriving DecidableEq, Repr

/-- A compiled SX function as the numeric evaluator sees it. -/
structure SXNumCtx (V : Type) where
  freeVars : List NodeId
  alg : List (SAlgEl V)
  worksize : Nat
  /-- declared output buffer sizes (`output(k)` nonzero counts) -/
  outSizes : List Nat
  dflt : V
  /-- `CASADI_MATH_FUN_BUILTIN`: the scalar kernel of a built-in op. -/
  fop : Nat → V → V → V

/-- Work array and element-wise output buffers of an SX evaluation. -/
structure SXNumState (V : Type) where
  work : List V
  outs : List (List (Option V))

/-- One record of `SXFunctionInternal::evaluate`'s tape loop. -/
def sxNumStep (f : SXNumCtx V) (inputs : List (List V)) (s : SXNumState V)
    (e : SAlgEl V) : SXNumState V :=
  match e.op with
  | .const => { s with work := s.work.set e.i0 e.d }
  | .input =>
      { s with work := s.work.set e.i0
                 ((inputs.getD e.i1 []).getD e.i2 f.dflt) }
  | .output =>
      { s with outs := s.outs.set e.i0
                 ((s.outs.getD e.i0 []).set e.i2
                   (some (s.work.getD e.i1 f.dflt))) }
  | .parameter => s
  | .builtin code =>
      { s with work := s.work.set e.i0
                 (f.fop code (s.work.getD e.i1 f.dflt)
                   (s.work.getD e.i2 f.dflt)) }

/-- Run the whole numeric SX tape. -/
def sxRunTape (f : SXNumCtx V) (inputs : List (List V)) : SXNumState V :=
  f.alg.foldl (sxNumStep f inputs)
    { work := List.replicate f.worksize f.dflt,
      outs := f.outSizes.map (fun n => List.replicate n none) }

/-- `SXFunctionInternal::evaluate`: identical `free_vars_` gate, then the
flat register-machine loop. -/
def sxEvaluate (f : SXNumCtx V) (inputs : List (List V)) :
    Except EvalErr (List (List (Option V))) :=
  if f.freeVars ≠ [] then .error .freeVariable
  else .ok (sxRunTape f inputs).outs

/-! ## Liveness allocator (`init`, work-vector placement)

`MXFunctionInternal::init` lines 243-311 walk the algorithm; for each
record, the first `numInplace()` arguments are freed, results are
allocated (popping a per-sparsity LIFO of freed slots when live variables
are on), and the remaining arguments are freed.  `SXFunctionInternal::init`
lines 449-488 do the scalar variant with a single free stack.

Arguments/results hold flat-node-list indices before the walk and
work-array slots after; `place` maps node index to slot.  We log every
free/reuse/fresh decision to state the reuse discipline. -/

/-- One allocator decision.  `free sp v`: slot `v`, whose occupant node has
sparsity handle `sp`, is pushed on the free LIFO of `sp`.  `reuse sp v`:
slot `v` is popped from the LIFO of `sp`, where `sp` is the sparsity handle
of the newly allocated result.  `fresh sp v`: a brand-new slot `v` for a
result of sparsity `sp`. -/
inductive AllocEv where
  | free (sp : Sp) (slot : Int)
  | reuse (sp : Sp) (slot : Int)
  | fresh (sp : Sp) (slot : Nat)
  deriving DecidableEq, Repr

/-- State of the MX slot allocator. -/
structure MXAllocState where
  refcount : Nat → Int
  place : Nat → Int
  unused : Sp → List Int
  worksize : Nat
  log : List AllocEv

/-- An algorithm element as the MX allocator sees it: `arg`/`res` are still
flat-node-list indices; `numInplace` is `it->data->numInplace()`; `resSp c`
is the sparsity handle `it->data->sparsity(c)` of output `c`. -/
structure MXAllocEl where
  op : MOp
  arg : List Int
  res : List Int
  numInplace : Nat
  resSp : List Sp

/-- Point update of a map. -/
def upd (f : Nat → Int) (i : Nat) (v : Int) : Nat → Int :=
  fun j => if j = i then v else f j

/-- Push a freed slot on the per-sparsity LIFO (and log it). -/
def pushFree (st : MXAllocState) (sp : Sp) (v : Int) : MXAllocState :=
  { st with
    unused := fun s => if s = sp then v :: st.unused s else st.unused s,
    log := st.log ++ [.free sp v] }

/-- Free one argument (`mx_function_internal.cpp` lines 256-276): decrement
its reference count, push its slot for reuse when the count reaches zero
and live variables are on, and rewrite the argument from node index to work
slot.  Returns the rewritten argument. -/
def mxFreeArg (live : Bool) (nodeSp : Nat → Sp) (st : MXAllocState)
    (a : Int) : MXAllocState × Int :=
  if a < 0 then (st, a)
  else
    let n := a.toNat
    let remaining := st.refcount n - 1
    let st1 := { st with refcount := upd st.refcount n remaining }
    let st2 := if live ∧ remaining = 0 then pushFree st1 (nodeSp n) (st1.place n)
      else st1
    (st2, st2.place n)

/-- Free the arguments with positions in `[first, last)`, in reverse order
("so that the first argument will end up at the top of the stack"). -/
def mxFreeRange (live : Bool) (nodeSp : Nat → Sp)
    (st : MXAllocState) (arg : List Int) (first last : Nat) :
    MXAllocState × List Int :=
  (List.range' first (last - first)).reverse.foldl
    (fun p c =>
      let q := mxFreeArg live nodeSp p.1 (p.2.getD c (-1))
      (q.1, p.2.set c q.2))
    (st, arg)

/-- Allocate the results (`mx_function_internal.cpp` lines 287-309): for
each non-negative result, pop the LIFO of its sparsity if live variables
are on and it is non-empty, otherwise take a fresh work-vector index. -/
def mxAllocResList (live : Bool) (st : MXAllocState) :
    List Int → List Sp → MXAllocState × List Int
  | [], _ => (st, [])
  | r :: rest, sps =>
    let sp := sps.headD 0
    if r < 0 then
      let q := mxAllocResList live st rest sps.tail
      (q.1, r :: q.2)
    else if live ∧ st.unused sp ≠ [] then
      let v := (st.unused sp).headD 0
      let st1 : MXAllocState :=
        { st with
          unused := fun s => if s = sp then (st.unused s).tail else st.unused s,
          place := upd st.place r.toNat v,
          log := st.log ++ [.reuse sp v] }
      let q := mxAllocResList live st1 rest sps.tail
      (q.1, v :: q.2)
    else
      let v : Int := st.worksize
      let st1 : MXAllocState :=
        { st with
          place := upd st.place r.toNat v,
          worksize := st.worksize + 1,
          log := st.log ++ [.fresh sp st.worksize] }
      let q := mxAllocResList live st1 rest sps.tail
      (q.1, v :: q.2)

/-- One record of the MX placement walk: free the first `numInplace`
arguments (all of them for `OP_OUTPUT`, which allocates nothing), allocate
the results, free the remaining arguments. -/
def mxAllocStep (live : Bool) (nodeSp : Nat → Sp) (st : MXAllocState)
    (e : MXAllocEl) : MXAllocState × MXAllocEl :=
  let lastToFree := if e.op = .output then 1 else e.numInplace
  let p1 := mxFreeRange live nodeSp st e.arg 0 lastToFree
  if e.op = .output then (p1.1, { e with arg := p1.2 })
  else
    let p2 := mxAllocResList live p1.1 e.res e.resSp
    let p3 := mxFreeRange live nodeSp p2.1 p1.2 lastToFree p1.2.length
    (p3.1, { e with arg := p3.2, res := p2.2 })

/-- The whole MX placement walk.  `refc0` is the reference count computed
by the emission pass, `p0` the initial contents of the (memory-reusing)
`place` vector. -/
def mxAllocRun (live : Bool) (nodeSp : Nat → Sp) (refc0 : Nat → Int)
    (p0 : Nat → Int) (alg : List MXAllocEl) : MXAllocState :=
  alg.foldl (fun st e => (mxAllocStep live nodeSp st e).1)
    { refcount := refc0, place := p0, unused := fun _ => [],
      worksize := 0, log := [] }

/-- State of the SX slot allocator (a single free stack, not keyed). -/
structure SXAllocState where
  refcount : Nat → Int
  place : Nat → Int
  unused : List Int
  worksize : Nat

/-- An algorithm element as the SX allocator sees it (`i0`,`i1`,`i2` are
still node indices; `ndeps` is `casadi_math<double>::ndeps(op)`). -/
structure SXAllocEl where
  op : SXOp
  i0 : Int
  i1 : Int
  i2 : Int
  ndeps : Nat

/-- One record of the SX placement walk (`sx_function_internal.cpp` lines
449-488).  Note the push on refcount zero is unconditional; only the pop is
guarded by `live_variables`. -/
def sxAllocStep (live : Bool) (st : SXAllocState) (e : SXAllocEl) :
    SXAllocState × SXAllocEl :=
  -- free the children, in reverse order
  let st1 := (List.range e.ndeps).reverse.foldl
    (fun st c =>
      let ch := (if c = 0 then e.i1 else e.i2).toNat
      let remaining := st.refcount ch - 1
      let st' := { st with refcount := upd st.refcount ch remaining }
      if remaining = 0 then { st' with unused := st'.place ch :: st'.unused }
      else st') st
  -- find a place to store the variable
  let p2 : SXAllocState × Int :=
    if e.op = .output then (st1, e.i0)
    else if live ∧ st1.unused ≠ [] then
      let v := st1.unused.headD 0
      ({ st1 with unused := st1.unused.tail,
                  place := upd st1.place e.i0.toNat v }, v)
    else
      ({ st1 with place := upd st1.place e.i0.toNat (st1.worksize : Int),
                  worksize := st1.worksize + 1 }, (st1.worksize : Int))
  -- save the location of the children
  let i1' := if 1 ≤ e.ndeps then p2.1.place e.i1.toNat else e.i1
  let i2' := if 2 ≤ e.ndeps then p2.1.place e.i2.toNat else e.i2
  -- if unary, make the second argument the same as the first
  let i2'' := if e.ndeps = 1 ∧ e.op ≠ .output then i1' else i2'
  (p2.1, { e with i0 := p2.2, i1 := i1', i2 := i2'' })

/-- The whole SX placement walk. -/
def sxAllocRun (live : Bool) (refc0 : Nat → Int) (p0 : Nat → Int)
    (alg : List SXAllocEl) : SXAllocState :=
  alg.foldl (fun st e => (sxAllocStep live st e).1)
    { refcount := refc0, place := p0, unused := [], worksize := 0 }

/-! ### Work-array size under live variables vs. without -/

/-- Number of non-negative entries (result positions that get a slot). -/
def cntPos : List Int → Nat
  | [] => 0
  | r :: rest => (if r < 0 then 0 else 1) + cntPos rest

/-- Slots a record would allocate with reuse disabled. -/
def mxCount (e : MXAllocEl) : Nat :=
  if e.op = .output then 0 else cntPos e.res

/-- Slots an SX record would allocate with reuse disabled. -/
def sxCount (e : SXAllocEl) : Nat :=
  if e.op = .output then 0 else 1

/-! ### The per-sparsity reuse discipline

To state that reuse is last-in-first-out within one sparsity class we view
the allocator's log, restricted to one sparsity handle, as a trace of stack
operations and show the trace is a valid stack history: every pop returns
the value of the matching (most recent unmatched) push. -/

/-- A stack operation on freed slots. -/
inductive StkOp where
  | push (v : Int)
  | pop (v : Int)
  deriving DecidableEq, Repr

/-- Is it a push? -/
def isPushOp : StkOp → Bool
  | .push _ => true
  | .pop _ => false

/-- Number of pushes in a trace segment. -/
def cntPush (l : List StkOp) : Nat := l.countP isPushOp

/-- Number of pops in a trace segment. -/
def cntPop (l : List StkOp) : Nat := l.countP (fun o => !(isPushOp o))

/-- The operations of `l` strictly between positions `j` and `q`. -/
def seg (l : List StkOp) (j q : Nat) : List StkOp := (l.take q).drop (j + 1)

/-- `StkMatch L i v`: the pop at position `i` returns the value pushed by a
matching earlier push: there is a `j < i` pushing `v` such that the segment
strictly between `j` and `i` is balanced and no prefix of it pops more than
it pushes (i.e. the push at `j` is still on the stack throughout and is on
top at `i`: last-in-first-out). -/
def StkMatch (L : List StkOp) (i : Nat) (v : Int) : Prop :=
  ∃ j, j < i ∧ L[j]? = some (.push v) ∧
    cntPush (seg L j i) = cntPop (seg L j i) ∧
    ∀ q, j < q → q ≤ i → cntPop (seg L j q) ≤ cntPush (seg L j q)

/-- Replay a trace over a stack whose entries are annotated with the
position of the push that created them; fail if a pop disagrees with the
top of the stack. -/
def replayAnn : List StkOp → Nat → List (Int × Nat) → Option (List (Int × Nat))
  | [], _, s => some s
  | .push v :: r, p, s => replayAnn r (p + 1) ((v, p) :: s)
  | .pop v :: r, p, s =>
      match s with
      | [] => none
      | (w, _) :: s' => if v = w then replayAnn r (p + 1) s' else none

/-- The invariant carried for one stack entry: annotated with its push
position `j` and sitting at depth `m`, the segment from `j` to the current
position has `m` more pushes than pops (the entries above it), and no
prefix of that segment has more pops than pushes. -/
def ElemInv (L : List StkOp) (p : Nat) (e : Int × Nat) (m : Nat) : Prop :=
  e.2 < p ∧ L[e.2]? = some (.push e.1) ∧
  cntPush (seg L e.2 p) = cntPop (seg L e.2 p) + m ∧
  ∀ q, e.2 < q → q ≤ p → cntPop (seg L e.2 q) ≤ cntPush (seg L e.2 q)

/-- The allocator log restricted to one sparsity class, as stack ops. -/
def classOps (sp : Sp) (log : List AllocEv) : List StkOp :=
  log.filterMap (fun ev => match ev with
    | .free s v => if s = sp then some (.push v) else none
    | .reuse s v => if s = sp then some (.pop v) else none
    | .fresh _ _ => none)

/-- Every slot on a free LIFO was logged as freed into that class. -/
def MembInv (st : MXAllocState) : Prop :=
  ∀ (sp : Sp) (v : Int), v ∈ st.unused sp →
    ∃ j : Nat, st.log[j]? = some (AllocEv.free sp v)

/-- Every reuse is preceded by a free of the same slot in the same class. -/
def PastInv (st : MXAllocState) : Prop :=
  ∀ (t : Nat) (sp : Sp) (v : Int), st.log[t]? = some (AllocEv.reuse sp v) →
    ∃ j : Nat, j < t ∧ st.log[j]? = some (AllocEv.free sp v)

/-- Each per-class restriction of the log replays to the class's LIFO. -/
def AnnInv (st : MXAllocState) : Prop :=
  ∀ sp, ∃ s, replayAnn (classOps sp st.log) 0 [] = some s ∧
    s.map Prod.fst = st.unused sp

/-- The combined log invariant of the allocator. -/
def LogInv (st : MXAllocState) : Prop := MembInv st ∧ PastInv st ∧ AnnInv st

/-! ## The spill tape (`MXFunctionInternal::allocTape`)

`allocTape` walks the algorithm keeping an `in_use` marker per work slot:
a non-negative result slot that is already marked triggers a spill entry
`(algorithm_index, slot)` (with a default-constructed `MX` payload);
otherwise the slot is marked.  `OP_OUTPUT` records are skipped. -/

/-- Scan one record's results (`allocTape`'s inner loop): returns the
updated `in_use` marker and the spill entries of this record, in result
order. -/
def spillRes (i : Nat) : List Int → (Int → Bool) → (Int → Bool) × List (Nat × Int)
  | [], inUse => (inUse, [])
  | r :: rest, inUse =>
      if 0 ≤ r then
        if inUse r then
          let q := spillRes i rest inUse
          (q.1, (i, r) :: q.2)
        else
          spillRes i rest (fun j => if j = r then true else inUse j)
      else spillRes i rest inUse

/-- The whole `allocTape` walk from record index `i` with marker `inUse`. -/
def allocTapeGo (dfltM : M) : List MAlgEl → Nat → (Int → Bool) →
    List ((Nat × Int) × M)
  | [], _, _ => []
  | e :: rest, i, inUse =>
      if e.op = MOp.output then allocTapeGo dfltM rest (i + 1) inUse
      else
        let q := spillRes i e.res inUse
        q.2.map (fun p => (p, dfltM)) ++ allocTapeGo dfltM rest (i + 1) q.1

/-- `MXFunctionInternal::allocTape`: the spill tape of an algorithm. -/
def allocTape (dfltM : M) (alg : List MAlgEl) : List ((Nat × Int) × M) :=
  allocTapeGo dfltM alg 0 (fun _ => false)

/-- A record writes slot `s`. -/
def writesSlot (e : MAlgEl) (s : Int) : Prop :=
  e.op ≠ MOp.output ∧ 0 ≤ s ∧ s ∈ e.res

instance (e : MAlgEl) (s : Int) : Decidable (writesSlot e s) := by
  unfold writesSlot; infer_instance

/-- A record whose reverse-sweep kernel consults the forward value of slot
`s`: on the reverse sweep only the operator branch (not the `OP_OUTPUT`,
`OP_INPUT` or `OP_PARAMETER` sentinels, which touch only the derivative
work array) reads the work array / spill tape, through its arguments. -/
def consultsSworkOnReverse (e : MAlgEl) (s : Int) : Prop :=
  e.op ≠ MOp.output ∧ e.op ≠ MOp.input ∧ e.op ≠ MOp.parameter ∧ s ∈ e.arg

instance (e : MAlgEl) (s : Int) : Decidable (consultsSworkOnReverse e s) := by
  unfold consultsSworkOnReverse; infer_instance

/-- The `in_use` marker after processing a list of records. -/
def inUseAfter : List MAlgEl → (Int → Bool) → (Int → Bool)
  | [], u => u
  | e :: rest, u =>
      inUseAfter rest (if e.op = MOp.output then u else (spillRes 0 e.res u).1)

/-! ## The symbolic AD evaluator, forward sweep (`MXFunctionInternal::evalMX`)

MX expressions are opaque handles; the evaluator uses them only through
the operations below, which we pass as a record (the operator kernels
`evaluateMX` are likewise an oracle). -/

/-- The operations `evalMX` applies to MX expression handles. -/
structure MXOps (M : Type) where
  /-- default-constructed `MX()` -/
  dflt : M
  /-- `isEmpty(true)` (used for the lazy zero-seed replacement) -/
  isEmptyBoth : M → Bool
  /-- `size()`: number of structural nonzeros -/
  nnz : M → Nat
  /-- `shape()` -/
  shape : M → Nat × Nat
  /-- `MX::sparse(shape)`: a structurally-zero matrix of that shape -/
  sparseZero : Nat × Nat → M
  /-- `setSparse(sp, true)`: project onto a sparsity pattern -/
  setSparse : M → Sp → M
  /-- `isEqual(·, ·, 2)`: structural equality to depth 2 -/
  isEqual2 : M → M → Bool

/-- Arguments of one `evaluateMX` kernel invocation (null pointers are
`none`; seeds/sensitivities are per-direction). -/
structure KCall (M : Type) where
  inputs : List (Option M)
  outputs : List (Option M)
  fseed : List (List (Option M))
  fsens : List (List (Option M))
  outputGiven : Bool

/-- What the kernel wrote back through its output and forward-sensitivity
pointers (`none` = left unchanged). -/
structure KRes (M : Type) where
  outputs : List (Option M)
  fsens : List (List (Option M))

/-- A compiled MX function as the symbolic evaluator sees it. -/
structure MXSymCtx (M : Type) where
  alg : List MAlgEl
  worksize : Nat
  inputv : List M
  outputv : List M
  /-- `input(i).sparsity()` -/
  inputSp : Nat → Sp
  /-- `input(i).shape()` -/
  inShape : Nat → Nat × Nat
  /-- `output(i).shape()` -/
  outShape : Nat → Nat × Nat
  /-- the `OP_PARAMETER` node of record `i` as an expression (`it->data`) -/
  paramOf : Nat → M
  /-- `it->data.getOutput(i)` at record `i` -/
  getOutput : Nat → Nat → M
  /-- the node's symbolic kernel `evaluateMX` -/
  kernel : Nat → KCall M → KRes M
  /-- `CasadiOptions::purgeSeeds` -/
  purgeFlag : Bool

/-- Which derivative arguments a `CALL`-node kernel invocation receives. -/
inductive CallDerMode where
  | noDer
  | purged
  | unpurged
  deriving DecidableEq, Repr

/-- The branch at `mx_function_internal.cpp` lines 899-911 selecting the
forward derivative arguments of an `OP_CALL` kernel.  NOTE: the source's
condition reads `fsens_purged.size()==0 && fsens_purged.size()==0` — the
same operand twice; we replicate it literally (the first parameter is
accordingly unused). -/
def fwdCallMode (purgeFlag : Bool) (_fseedPurged fsensPurged : List α) :
    CallDerMode :=
  if fsensPurged.length = 0 ∧ fsensPurged.length = 0 then .noDer
  else if purgeFlag then .purged
  else .unpurged

/-- The branch at `mx_function_internal.cpp` lines 1027-1038 selecting the
adjoint derivative arguments of an `OP_CALL` kernel (here the two operands
are distinct). -/
def adjCallMode (purgeFlag : Bool) (aseedPurged asensPurged : List α) :
    CallDerMode :=
  if aseedPurged.length = 0 ∧ asensPurged.length = 0 then .noDer
  else if purgeFlag then .purged
  else .unpurged

/-- Is this direction's entire seed vector structurally empty? -/
def dirAllEmpty (ops : MXOps M) (dir : List (Option M)) : Bool :=
  dir.all (fun o => match o with
    | none => true
    | some m => decide (ops.nnz m = 0))

/-- Modelled from the spec: `XFunctionInternal::purgeSeeds` is declared in
x_function_internal.hpp, which is not part of this source subset.  Per the
spec, purging drops the directions whose entire seed vector is structurally
empty; the retained directions are kept, in order, in the purged seed and
the purged sensitivity containers alike.  Returns the retained direction
indices and the two purged containers. -/
def purgeSeedsModel (ops : MXOps M) (seedP sensP : List (List (Option M))) :
    List Nat × List (List (Option M)) × List (List (Option M)) :=
  let dirs := (List.range seedP.length).filter
    (fun d => ! dirAllEmpty ops (seedP.getD d []))
  (dirs, dirs.map (fun d => seedP.getD d []), dirs.map (fun d => sensP.getD d []))

/-- State of the forward symbolic sweep. -/
structure FwdState (M : Type) where
  swork : List M
  dwork : List (List M)
  res : List M
  fsens : List (List M)
  tape : List ((Nat × Int) × M)
  tt : Nat

/-- The spill capture at the head of the forward loop
(`mx_function_internal.cpp` lines 806-813): for each non-negative result
slot, if the next tape entry matches `(alg_counter, slot)`, store the
slot's current symbolic content there and advance the tape counter. -/
def spillScan (dfltM : M) (swork : List M) (i : Nat) :
    List Int → List ((Nat × Int) × M) → Nat →
    List ((Nat × Int) × M) × Nat
  | [], tape, tt => (tape, tt)
  | c :: rest, tape, tt =>
      if 0 ≤ c ∧ (tape[tt]?).map Prod.fst = some (i, c) then
        spillScan dfltM swork i rest
          (tape.set tt ((i, c), swork.getD c.toNat dfltM)) (tt + 1)
      else spillScan dfltM swork i rest tape tt

/-- The lazy zero-seed replacement of the forward sweep (lines 864-889):
for every direction, absent (structurally empty) seeds of arguments get a
structural zero of the argument's current shape (direction 0) or share
direction 0's zero; absent sensitivities of results get a structural zero
of the (current) output shape. -/
def lazyFillSeeds (ops : MXOps M) (outputGiven : Bool) (nfdir : Nat)
    (outTmp : List M) (arg res : List Int) (swork : List M)
    (dwork : List (List M)) : List (List M) :=
  (List.range nfdir).foldl (fun dw d =>
    let dw := (List.range arg.length).foldl (fun dw iind =>
      let el := arg.getD iind (-1)
      if 0 ≤ el ∧ ops.isEmptyBoth ((dw.getD el.toNat []).getD d ops.dflt) then
        let v := if d = 0 then
            ops.sparseZero (ops.shape (swork.getD el.toNat ops.dflt))
          else (dw.getD el.toNat []).getD 0 ops.dflt
        dw.set el.toNat ((dw.getD el.toNat []).set d v)
      else dw) dw
    (List.range res.length).foldl (fun dw oind =>
      let el := res.getD oind (-1)
      if 0 ≤ el ∧ ops.isEmptyBoth ((dw.getD el.toNat []).getD d ops.dflt) then
        let outV := if outputGiven then outTmp.getD oind ops.dflt
          else swork.getD el.toNat ops.dflt
        dw.set el.toNat ((dw.getD el.toNat []).set d
          (ops.sparseZero (ops.shape outV)))
      else dw) dw) dwork

/-- Assemble per-direction pointer vectors over the derivative work array. -/
def mkDirPtrs (ops : MXOps M) (nfdir : Nat) (ix : List Int)
    (dwork : List (List M)) : List (List (Option M)) :=
  (List.range nfdir).map (fun d => ix.map (fun el =>
    if el < 0 then none else some ((dwork.getD el.toNat []).getD d ops.dflt)))

/-- Write the kernel's outputs back through the result pointers: into the
temporary output list when the outputs were given, into the work array
otherwise. -/
def writeKernelOuts (outputGiven : Bool) (res : List Int)
    (kouts : List (Option M)) (swork : List M) (outTmp : List M) :
    List M × List M :=
  (List.range res.length).foldl (fun p c =>
    let el := res.getD c (-1)
    if el < 0 then p
    else match kouts.getD c none with
      | none => p
      | some v =>
          if outputGiven then (p.1, p.2.set c v)
          else (p.1.set el.toNat v, p.2)) (swork, outTmp)

/-- Write the kernel's forward sensitivities back into the derivative work
array, the passed direction `k` landing in original direction `dirs[k]`. -/
def writeKernelSens (res : List Int) (dirs : List Nat)
    (ksens : List (List (Option M))) (dwork : List (List M)) :
    List (List M) :=
  (List.range dirs.length).foldl (fun dw k =>
    let d := dirs.getD k 0
    (List.range res.length).foldl (fun dw oind =>
      let el := res.getD oind (-1)
      if el < 0 then dw
      else match (ksens.getD k []).getD oind none with
        | none => dw
        | some v => dw.set el.toNat ((dw.getD el.toNat []).set d v)) dw) dwork

/-- The operator branch of the forward sweep (lines 838-927): fetch known
outputs, lazily fill the seeds, build the pointer vectors, invoke the
kernel (through the `OP_CALL` purge branch when applicable) and write the
results back, deferring the work-array update when outputs were given. -/
def fwdOperator (ops : MXOps M) (ctx : MXSymCtx M) (outputGiven : Bool)
    (nfdir : Nat) (st : FwdState M) (i : Nat) (e : MAlgEl) : FwdState M :=
  let outTmp := if outputGiven then
      (List.range e.res.length).map (fun c =>
        if 0 ≤ e.res.getD c (-1) then ctx.getOutput i c else ops.dflt)
    else []
  let dwork1 := lazyFillSeeds ops outputGiven nfdir outTmp e.arg e.res
    st.swork st.dwork
  let inputP := e.arg.map (fun el =>
    if el < 0 then none else some (st.swork.getD el.toNat ops.dflt))
  let outputP := (List.range e.res.length).map (fun c =>
    let el := e.res.getD c (-1)
    if el < 0 then none
    else some (if outputGiven then outTmp.getD c ops.dflt
      else st.swork.getD el.toNat ops.dflt))
  let fseedP := mkDirPtrs ops nfdir e.arg dwork1
  let fsensP := mkDirPtrs ops nfdir e.res dwork1
  let run : List M × List (List M) × List M :=
    if ¬ outputGiven ∨ 0 < nfdir then
      if e.op = MOp.call then
        let pur := purgeSeedsModel ops fseedP fsensP
        match fwdCallMode ctx.purgeFlag pur.2.1 pur.2.2 with
        | .noDer =>
            let kr := ctx.kernel i ⟨inputP, outputP, [], [], outputGiven⟩
            let w := writeKernelOuts outputGiven e.res kr.outputs st.swork outTmp
            (w.1, writeKernelSens e.res [] kr.fsens dwork1, w.2)
        | .purged =>
            let kr := ctx.kernel i ⟨inputP, outputP, pur.2.1, pur.2.2,
              outputGiven⟩
            let w := writeKernelOuts outputGiven e.res kr.outputs st.swork outTmp
            (w.1, writeKernelSens e.res pur.1 kr.fsens dwork1, w.2)
        | .unpurged =>
            let kr := ctx.kernel i ⟨inputP, outputP, fseedP, fsensP,
              outputGiven⟩
            let w := writeKernelOuts outputGiven e.res kr.outputs st.swork outTmp
            (w.1, writeKernelSens e.res (List.range nfdir) kr.fsens dwork1, w.2)
      else
        let kr := ctx.kernel i ⟨inputP, outputP, fseedP, fsensP, outputGiven⟩
        let w := writeKernelOuts outputGiven e.res kr.outputs st.swork outTmp
        (w.1, writeKernelSens e.res (List.range nfdir) kr.fsens dwork1, w.2)
    else (st.swork, dwork1, outTmp)
  -- save known results to the work vector (deferred for inplace operations)
  let swork2 := if outputGiven then
      (List.range e.res.length).foldl (fun w c =>
        let el := e.res.getD c (-1)
        if 0 ≤ el then w.set el.toNat (run.2.2.getD c ops.dflt) else w) run.1
    else run.1
  { st with swork := swork2, dwork := run.2.1 }

/-- One record of the forward sweep, without the spill capture. -/
def fwdStepCore (ops : MXOps M) (ctx : MXSymCtx M) (outputGiven : Bool)
    (nfdir : Nat) (arg : List M) (fseed : List (List M))
    (st : FwdState M) (i : Nat) (e : MAlgEl) : FwdState M :=
  match e.op with
  | .input =>
      let inIdx := (e.arg.headD (-1)).toNat
      let r0 := (e.res.headD (-1)).toNat
      let spIn := ctx.inputSp inIdx
      { st with
        swork := st.swork.set r0 (ops.setSparse (arg.getD inIdx ops.dflt) spIn),
        dwork := st.dwork.set r0 ((List.range nfdir).map (fun d =>
          ops.setSparse ((fseed.getD d []).getD inIdx ops.dflt) spIn)) }
  | .output =>
      let o0 := (e.res.headD (-1)).toNat
      let a0 := (e.arg.headD (-1)).toNat
      { st with
        res := if outputGiven then st.res
          else st.res.set o0 (st.swork.getD a0 ops.dflt),
        fsens := (List.range nfdir).foldl (fun fs d =>
          fs.set d ((fs.getD d []).set o0
            ((st.dwork.getD a0 []).getD d ops.dflt))) st.fsens }
  | .parameter =>
      let r0 := (e.res.headD (-1)).toNat
      { st with
        swork := st.swork.set r0 (ctx.paramOf i),
        dwork := st.dwork.set r0 ((List.range nfdir).map (fun _ => ops.dflt)) }
  | _ => fwdOperator ops ctx outputGiven nfdir st i e

/-- One record of the forward sweep: the spill capture (active when an
adjoint sweep will follow and the record is not an output sentinel), then
the record itself. -/
def fwdStep (ops : MXOps M) (ctx : MXSymCtx M) (outputGiven : Bool)
    (nfdir nadir : Nat) (arg : List M) (fseed : List (List M))
    (st : FwdState M) (i : Nat) (e : MAlgEl) : FwdState M :=
  let sc := if 0 < nadir ∧ e.op ≠ MOp.output then
      spillScan ops.dflt st.swork i e.res st.tape st.tt
    else (st.tape, st.tt)
  fwdStepCore ops ctx outputGiven nfdir arg fseed
    { st with tape := sc.1, tt := sc.2 } i e

/-- The initial state of the forward sweep. -/
def fwdInit (ops : MXOps M) (ctx : MXSymCtx M) (outputGiven : Bool)
    (nfdir : Nat) (fsens0 : List (List M)) : FwdState M :=
  { swork := List.replicate ctx.worksize ops.dflt,
    dwork := List.replicate ctx.worksize (List.replicate nfdir ops.dflt),
    res := if outputGiven then ctx.outputv
      else List.replicate ctx.outputv.length ops.dflt,
    fsens := fsens0,
    tape := allocTape ops.dflt ctx.alg,
    tt := 0 }

/-- The forward sweep over a record list, carrying the algorithm counter. -/
def fwdGo (ops : MXOps M) (ctx : MXSymCtx M) (outputGiven : Bool)
    (nfdir nadir : Nat) (arg : List M) (fseed : List (List M)) :
    FwdState M → Nat → List MAlgEl → FwdState M
  | st, _, [] => st
  | st, k, e :: rest =>
      fwdGo ops ctx outputGiven nfdir nadir arg fseed
        (fwdStep ops ctx outputGiven nfdir nadir arg fseed st k e) (k + 1) rest

/-- The whole forward sweep. -/
def fwdPass (ops : MXOps M) (ctx : MXSymCtx M) (outputGiven : Bool)
    (nfdir nadir : Nat) (arg : List M) (fseed : List (List M))
    (fsens0 : List (List M)) : FwdState M :=
  fwdGo ops ctx outputGiven nfdir nadir arg fseed
    (fwdInit ops ctx outputGiven nfdir fsens0) 0 ctx.alg

/-- Are the supplied arguments bounded-depth-equal to the declared inputs
(lines 695-701)? -/
def mxOutputGiven (ops : MXOps M) (inputv arg1 : List M) : Bool :=
  (List.range arg1.length).all (fun i =>
    ops.isEqual2 (arg1.getD i ops.dflt) (inputv.getD i ops.dflt))

/-- Are all seeds of all directions structurally empty (lines 713-731)? -/
def mxSkipDirs (ops : MXOps M) (seed : List (List M)) : Bool :=
  seed.all (fun dir => dir.all (fun m => decide (ops.nnz m = 0)))

/-- What `evalMX` computed.  The adjoint sweep itself is outside this model
(no claim inspects its outcome): `asens` holds the adjoint-sensitivity
buffers as allocated before the reverse sweep, which is exactly what the
evaluator returns whenever the reverse sweep is skipped (`nadirRun = 0`).
`nfdirRun`/`nadirRun` are the direction counts the derivative sweeps
process. -/
structure EvalMXOut (M : Type) where
  res : List M
  fsens : List (List M)
  asens : List (List M)
  nfdirRun : Nat
  nadirRun : Nat

/-- `MXFunctionInternal::evalMX`, up to and including the forward sweep:
the output-given fast path, the all-empty-seed skips with their
structurally-zero sensitivity allocation, the quick return, and the
forward symbolic sweep with its spill capture. -/
def evalMXModel (ops : MXOps M) (ctx : MXSymCtx M) (arg1 : List M)
    (fseed aseed : List (List M)) : EvalMXOut M :=
  let outputGiven := mxOutputGiven ops ctx.inputv arg1
  let skipFwd := mxSkipDirs ops fseed
  let skipAdj := mxSkipDirs ops aseed
  let fsens0 := (List.range fseed.length).map (fun _ =>
    (List.range ctx.outputv.length).map (fun i =>
      if skipFwd then ops.sparseZero (ctx.outShape i) else ops.dflt))
  let asens0 := (List.range aseed.length).map (fun _ =>
    (List.range ctx.inputv.length).map (fun i =>
      if skipAdj then ops.sparseZero (ctx.inShape i) else ops.dflt))
  let nfdir := if skipFwd then 0 else fseed.length
  let nadir := if skipAdj then 0 else aseed.length
  let res0 := if outputGiven then ctx.outputv
    else List.replicate ctx.outputv.length ops.dflt
  if outputGiven ∧ nfdir = 0 ∧ nadir = 0 then
    ⟨res0, fsens0, asens0, 0, 0⟩
  else
    let arg := if outputGiven then ctx.inputv else arg1
    let st := fwdPass ops ctx outputGiven nfdir nadir arg fseed fsens0
    ⟨st.res, st.fsens, asens0, nfdir, nadir⟩

/-! ## The symbolic SX evaluator (`SXFunctionInternal::evalSXsparse`)

SX scalar expressions are opaque handles with the operations below. -/

/-- The operations `evalSXsparse` applies to SX scalar handles. -/
structure SXSymOps (E : Type) where
  /-- the literal scalar `0` -/
  zero : E
  add : E → E → E
  mul : E → E → E
  /-- `CASADI_MATH_FUN_BUILTIN` -/
  fop : Nat → E → E → E
  /-- `CASADI_MATH_DER_BUILTIN`: both partial derivatives -/
  der : Nat → E → E → E → E × E
  /-- `SXElement::assignIfDuplicate(·, 2)` applied to the freshly built
  value and the recorded operation -/
  assignIfDup : E → E → E
  /-- `isEqual(·, 2)` -/
  isEqual2 : E → E → Bool

/-- A compiled SX function as the symbolic evaluator sees it.  The `d`
field of the records is unused here (the numeric constants live in
`constants`). -/
structure SXSymCtx (E : Type) where
  alg : List (SAlgEl E)
  worksize : Nat
  inputv : List (List E)
  outputv : List (List E)
  /-- `constants_`, consumed in order by `OP_CONST` records -/
  constants : List E
  /-- `free_vars_`, consumed in order by `OP_PARAMETER` records -/
  freeVars : List E
  /-- `operations_`, consumed in order by the operator records -/
  operations : List E
  /-- is this builtin code a `CASADI_MATH_BINARY_BUILTIN`? -/
  isBinary : Nat → Bool

/-- State of the symbolic SX value pass: the scalar work array, the two
output targets (the caller's buffer and the stored output expressions —
`res` aliases the latter when the outputs were given), the three iterator
positions and the accumulated partial-derivative tape. -/
structure SXSymState (E : Type) where
  work : List E
  res1 : List (List E)
  outv : List (List E)
  cIdx : Nat
  pIdx : Nat
  bIdx : Nat
  pd : List (E × E)

/-- One record of the symbolic SX value pass (`evalSXsparse`'s first
loop). -/
def sxSymValStep (ops : SXSymOps E) (ctx : SXSymCtx E) (outputGiven : Bool)
    (taping : Bool) (arg : List (List E)) (st : SXSymState E)
    (e : SAlgEl E) : SXSymState E :=
  match e.op with
  | .input =>
      { st with work := st.work.set e.i0 ((arg.getD e.i1 []).getD e.i2 ops.zero) }
  | .output =>
      if outputGiven then
        { st with
          outv := st.outv.set e.i0
            ((st.outv.getD e.i0 []).set e.i2 (st.work.getD e.i1 ops.zero)) }
      else
        { st with
          res1 := st.res1.set e.i0
            ((st.res1.getD e.i0 []).set e.i2 (st.work.getD e.i1 ops.zero)) }
  | .const =>
      { st with work := st.work.set e.i0 (ctx.constants.getD st.cIdx ops.zero),
                cIdx := st.cIdx + 1 }
  | .parameter =>
      { st with work := st.work.set e.i0 (ctx.freeVars.getD st.pIdx ops.zero),
                pIdx := st.pIdx + 1 }
  | .builtin code =>
      let w1 := st.work.getD e.i1 ops.zero
      let w2 := st.work.getD e.i2 ops.zero
      let f := if outputGiven then ctx.operations.getD st.bIdx ops.zero
        else ops.assignIfDup (ops.fop code w1 w2)
          (ctx.operations.getD st.bIdx ops.zero)
      { st with work := st.work.set e.i0 f,
                bIdx := st.bIdx + 1,
                pd := if taping then st.pd ++ [ops.der code w1 w2 f] else st.pd }

/-- One record of a forward-derivative direction (`evalSXsparse`'s second
loop); the state is the work array, this direction's sensitivity buffer
and the tape position. -/
def sxSymFwdStep (ops : SXSymOps E) (ctx : SXSymCtx E)
    (fseedd : List (List E)) (pd : List (E × E))
    (st : List E × List (List E) × Nat) (e : SAlgEl E) :
    List E × List (List E) × Nat :=
  match e.op with
  | .input =>
      (st.1.set e.i0 ((fseedd.getD e.i1 []).getD e.i2 ops.zero), st.2.1, st.2.2)
  | .output =>
      (st.1, st.2.1.set e.i0
        ((st.2.1.getD e.i0 []).set e.i2 (st.1.getD e.i1 ops.zero)), st.2.2)
  | .const => (st.1.set e.i0 ops.zero, st.2.1, st.2.2)
  | .parameter => (st.1.set e.i0 ops.zero, st.2.1, st.2.2)
  | .builtin code =>
      let d := pd.getD st.2.2 (ops.zero, ops.zero)
      let v := if ctx.isBinary code then
          ops.add (ops.mul d.1 (st.1.getD e.i1 ops.zero))
            (ops.mul d.2 (st.1.getD e.i2 ops.zero))
        else ops.mul d.1 (st.1.getD e.i1 ops.zero)
      (st.1.set e.i0 v, st.2.1, st.2.2 + 1)

/-- One record of an adjoint direction (`evalSXsparse`'s third loop, run in
reverse); the state is the work array, this direction's sensitivity buffer
and the reverse tape position (one past the next entry). -/
def sxSymAdjStep (ops : SXSymOps E) (ctx : SXSymCtx E)
    (aseedd : List (List E)) (pd : List (E × E))
    (st : List E × List (List E) × Nat) (e : SAlgEl E) :
    List E × List (List E) × Nat :=
  match e.op with
  | .input =>
      (st.1.set e.i0 ops.zero,
       st.2.1.set e.i1 ((st.2.1.getD e.i1 []).set e.i2 (st.1.getD e.i0 ops.zero)),
       st.2.2)
  | .output =>
      (st.1.set e.i1 (ops.add (st.1.getD e.i1 ops.zero)
        ((aseedd.getD e.i0 []).getD e.i2 ops.zero)), st.2.1, st.2.2)
  | .const => (st.1.set e.i0 ops.zero, st.2.1, st.2.2)
  | .parameter => (st.1.set e.i0 ops.zero, st.2.1, st.2.2)
  | .builtin code =>
      let d := pd.getD (st.2.2 - 1) (ops.zero, ops.zero)
      let seed := st.1.getD e.i0 ops.zero
      let w := st.1.set e.i0 ops.zero
      let w := w.set e.i1 (ops.add (w.getD e.i1 ops.zero) (ops.mul d.1 seed))
      let w := if ctx.isBinary code then
          w.set e.i2 (ops.add (w.getD e.i2 ops.zero) (ops.mul d.2 seed))
        else w
      (w, st.2.1, st.2.2 - 1)

/-- `std::copy`: overwrite the head of `dst` with `src`. -/
def copyInto (dst src : List E) : List E :=
  src ++ dst.drop src.length

/-- Are the supplied scalar arguments element-wise bounded-depth-equal to
the declared inputs (`evalSXsparse` lines 633-641)? -/
def sxOutputGiven (ops : SXSymOps E) (inputv arg1 : List (List E)) : Bool :=
  (List.range arg1.length).all (fun i =>
    (List.range (arg1.getD i []).length).all (fun j =>
      ops.isEqual2 ((arg1.getD i []).getD j ops.zero)
        ((inputv.getD i []).getD j ops.zero)))

/-- What `evalSXsparse` computed. -/
structure SXEvalOut (E : Type) where
  res1 : List (List E)
  outv : List (List E)
  fsens : List (List (List E))
  asens : List (List (List E))
  nfdirRun : Nat
  nadirRun : Nat

/-- `SXFunctionInternal::evalSXsparse`: detect given outputs element-wise,
copy the stored outputs into the caller's buffer if so, run the value pass
(writing outputs into the stored expressions when they were given, the
caller's buffer otherwise), quick-return without derivatives when no
direction is requested, then run every requested forward direction and —
after zeroing the work array — every requested adjoint direction. -/
def evalSXsparseModel (ops : SXSymOps E) (ctx : SXSymCtx E)
    (arg1 : List (List E)) (res1In : List (List E))
    (fseed : List (List (List E))) (fsensIn : List (List (List E)))
    (aseed : List (List (List E))) (asensIn : List (List (List E))) :
    SXEvalOut E :=
  let outputGiven := sxOutputGiven ops ctx.inputv arg1
  let res1C := if outputGiven then
      (List.range res1In.length).map (fun i =>
        copyInto (res1In.getD i []) (ctx.outputv.getD i []))
    else res1In
  let arg := if outputGiven then ctx.inputv else arg1
  let nfdir := fsensIn.length
  let nadir := aseed.length
  let taping := 0 < nfdir ∨ 0 < nadir
  let st0 : SXSymState E :=
    ⟨List.replicate ctx.worksize ops.zero, res1C, ctx.outputv, 0, 0, 0, []⟩
  let stV := ctx.alg.foldl (sxSymValStep ops ctx outputGiven taping arg) st0
  if ¬ taping then ⟨stV.res1, stV.outv, fsensIn, asensIn, 0, 0⟩
  else
    let fwd := (List.range nfdir).foldl (fun p d =>
        let q := ctx.alg.foldl
          (sxSymFwdStep ops ctx (fseed.getD d []) stV.pd)
          (p.1, fsensIn.getD d [], 0)
        (q.1, p.2.set d q.2.1)) (stV.work, fsensIn)
    let wA := if 0 < nadir then List.replicate ctx.worksize ops.zero else fwd.1
    let adj := (List.range nadir).foldl (fun p d =>
        let q := ctx.alg.reverse.foldl
          (sxSymAdjStep ops ctx (aseed.getD d []) stV.pd)
          (p.1, asensIn.getD d [], stV.pd.length)
        (q.1, p.2.set d q.2.1)) (wA, asensIn)
    ⟨stV.res1, stV.outv, fwd.2, adj.2, nfdir, nadir⟩

/-! ## Specification packages and concrete instances -/

/-- The spill-tape specification of one symbolic evaluation: the tape has
an entry `(i, s)` exactly for the overwrites of already-written slots
(with the default payload before the sweep); the forward sweep consumes
the whole tape and replaces each entry's payload by the work slot's
symbolic content just before the matching record executes. -/
def SpillTapeSpec (ops : MXOps M) (ctx : MXSymCtx M) (og : Bool)
    (nfdir nadir : Nat) (arg : List M) (fseed : List (List M))
    (fsens0 : List (List M)) : Prop :=
  (∀ (i : Nat) (s : Int) (d : M),
      ((i, s), d) ∈ allocTape ops.dflt ctx.alg ↔
        (d = ops.dflt ∧ (∃ e, ctx.alg[i]? = some e ∧ writesSlot e s) ∧
          ∃ j, j < i ∧ ∃ e', ctx.alg[j]? = some e' ∧ writesSlot e' s)) ∧
  (fwdPass ops ctx og nfdir nadir arg fseed fsens0).tape.length
      = (allocTape ops.dflt ctx.alg).length ∧
  (fwdPass ops ctx og nfdir nadir arg fseed fsens0).tt
      = (allocTape ops.dflt ctx.alg).length ∧
  ∀ (t i : Nat) (s : Int) (d : M),
    ((fwdPass ops ctx og nfdir nadir arg fseed fsens0).tape)[t]?
        = some ((i, s), d) →
    (allocTape ops.dflt ctx.alg)[t]?.map Prod.fst = some (i, s) ∧
    d = (fwdGo ops ctx og nfdir nadir arg fseed
          (fwdInit ops ctx og nfdir fsens0) 0 (ctx.alg.take i)).swork.getD
          s.toNat ops.dflt

/-- An algorithm whose only spilled slot is never consulted by any record
on the reverse sweep: the input fills slot 0, an output reads it, a
parameter overwrites it, a second output reads it again. -/
def mxTapeUnreadAlg : List MAlgEl :=
  [⟨MOp.input, [0], [0]⟩, ⟨MOp.output, [0], [0]⟩,
   ⟨MOp.parameter, [], [0]⟩, ⟨MOp.output, [0], [1]⟩]

/-- Concrete MX handle operations over `Int` handles: `0` is the
default-constructed expression, `setSparse` is made injective in the
sparsity so that projections are observable. -/
def intMXOps : MXOps Int :=
  ⟨0, fun m => decide (m = 0), fun m => m.natAbs, fun _ => (1, 1),
   fun _ => 0, fun m sp => m + sp, fun a b => decide (a = b)⟩

/-- A two-record function whose second record overwrites slot 0: its spill
tape has the single entry `((1, 0), MX())`. -/
def spillCtx : MXSymCtx Int :=
  ⟨[⟨MOp.parameter, [], [0]⟩, ⟨MOp.other, [0], [0]⟩], 1, [], [],
   fun _ => 0, fun _ => (1, 1), fun _ => (1, 1), fun _ => 3,
   fun _ _ => 0, fun _ _ => ⟨[], []⟩, false⟩

/-- The identity function on one `(1, 1)` input, with input sparsity
handle `5`. -/
def identCtx : MXSymCtx Int :=
  ⟨[⟨MOp.input, [0], [0]⟩, ⟨MOp.output, [0], [0]⟩], 1, [42], [42],
   fun _ => 5, fun _ => (1, 1), fun _ => (1, 1), fun _ => 0,
   fun _ _ => 0, fun _ _ => ⟨[], []⟩, false⟩

/-- Concrete SX scalar operations over `Int` handles. -/
def intSXOps : SXSymOps Int :=
  ⟨0, fun a b => a + b, fun a b => a * b, fun _ a b => a + b,
   fun _ a b _ => (a, b), fun f _ => f, fun a b => decide (a = b)⟩

/-- The identity SX function on one scalar input. -/
def identSXCtx : SXSymCtx Int :=
  ⟨[⟨SXOp.input, 0, 0, 0, 0⟩, ⟨SXOp.output, 0, 0, 0, 0⟩], 1, [[42]], [[42]],
   [], [], [], fun _ => true⟩

theorem mxFreeArg_worksize (live : Bool) (nodeSp : Nat → Sp)
    (st : MXAllocState) (a : Int) :
    ((mxFreeArg live nodeSp st a).1).worksize = st.worksize := by
  rw [mxFreeArg]
  split
  · rfl
  · dsimp only
    split
    · rfl
    · rfl

theorem mxFreeRange_worksize (live : Bool) (nodeSp : Nat → Sp)
    (st : MXAllocState) (arg : List Int) (first last : Nat) :
    ((mxFreeRange live nodeSp st arg first last).1).worksize = st.worksize := by
  rw [mxFreeRange]
  generalize (List.range' first (last - first)).reverse = l
  induction l generalizing st arg with
  | nil => rfl
  | cons c r ih =>
      rw [List.foldl_cons]
      dsimp only
      rw [ih]
      exact mxFreeArg_worksize live nodeSp st (arg.getD c (-1))

theorem mxAllocResList_worksize_le (live : Bool) :
    ∀ (res : List Int) (sps : List Sp) (st : MXAllocState),
      ((mxAllocResList live st res sps).1).worksize
        ≤ st.worksize + cntPos res := by
  intro res
  induction res with
  | nil => intro sps st; simp [mxAllocResList, cntPos]
  | cons r rest ih =>
      intro sps st
      rw [mxAllocResList]
      dsimp only
      split
      · next hr =>
          have h := ih sps.tail st
          simp only [cntPos, if_pos hr]
          omega
      · next hr =>
          split
          · refine le_trans (ih sps.tail _) ?_
            simp only [cntPos, if_neg hr]
            omega
          · refine le_trans (ih sps.tail _) ?_
            simp only [cntPos, if_neg hr]
            omega

theorem mxAllocResList_worksize_false :
    ∀ (res : List Int) (sps : List Sp) (st : MXAllocState),
      ((mxAllocResList false st res sps).1).worksize
        = st.worksize + cntPos res := by
  intro res
  induction res with
  | nil => intro sps st; simp [mxAllocResList, cntPos]
  | cons r rest ih =>
      intro sps st
      rw [mxAllocResList]
      dsimp only
      split
      · next hr =>
          have h := ih sps.tail st
          simp only [cntPos, if_pos hr]
          omega
      · next hr =>
          have hcond : ¬((false : Bool) = true ∧ st.unused (sps.headD 0) ≠ []) := by
            simp
          rw [if_neg hcond]
          rw [ih sps.tail _]
          simp only [cntPos, if_neg hr]
          omega

theorem mxAllocStep_worksize_le (live : Bool) (nodeSp : Nat → Sp)
    (st : MXAllocState) (e : MXAllocEl) :
    ((mxAllocStep live nodeSp st e).1).worksize ≤ st.worksize + mxCount e := by
  rw [mxAllocStep]
  dsimp only
  split
  · next ho => simp [mxCount, ho, mxFreeRange_worksize]
  · next ho =>
      rw [mxFreeRange_worksize]
      refine le_trans (mxAllocResList_worksize_le live e.res e.resSp _) ?_
      rw [mxFreeRange_worksize]
      simp [mxCount, if_neg ho]

theorem mxAllocStep_worksize_false (nodeSp : Nat → Sp)
    (st : MXAllocState) (e : MXAllocEl) :
    ((mxAllocStep false nodeSp st e).1).worksize = st.worksize + mxCount e := by
  rw [mxAllocStep]
  dsimp only
  split
  · next ho => simp [mxCount, ho, mxFreeRange_worksize]
  · next ho =>
      rw [mxFreeRange_worksize, mxAllocResList_worksize_false, mxFreeRange_worksize]
      simp [mxCount, if_neg ho]

theorem mxAllocFold_worksize_le (live : Bool) (nodeSp : Nat → Sp) :
    ∀ (alg : List MXAllocEl) (st : MXAllocState),
      ((alg.foldl (fun st e => (mxAllocStep live nodeSp st e).1) st)).worksize
        ≤ st.worksize + (alg.map mxCount).sum := by
  intro alg
  induction alg with
  | nil => intro st; simp
  | cons e rest ih =>
      intro st
      rw [List.foldl_cons]
      have h1 := ih (mxAllocStep live nodeSp st e).1
      have h2 := mxAllocStep_worksize_le live nodeSp st e
      simp only [List.map_cons, List.sum_cons]
      omega

theorem mxAllocFold_worksize_false (nodeSp : Nat → Sp) :
    ∀ (alg : List MXAllocEl) (st : MXAllocState),
      ((alg.foldl (fun st e => (mxAllocStep false nodeSp st e).1) st)).worksize
        = st.worksize + (alg.map mxCount).sum := by
  intro alg
  induction alg with
  | nil => intro st; simp
  | cons e rest ih =>
      intro st
      rw [List.foldl_cons]
      have h1 := ih (mxAllocStep false nodeSp st e).1
      have h2 := mxAllocStep_worksize_false nodeSp st e
      simp only [List.map_cons, List.sum_cons]
      omega

theorem sxAllocStep_worksize_le (live : Bool) (st : SXAllocState)
    (e : SXAllocEl) :
    ((sxAllocStep live st e).1).worksize ≤ st.worksize + sxCount e := by
  rw [sxAllocStep]
  generalize hfold : (List.range e.ndeps).reverse.foldl _ st = st1
  have hw1 : st1.worksize = st.worksize := by
    subst hfold
    generalize (List.range e.ndeps).reverse = l
    induction l generalizing st with
    | nil => rfl
    | cons c r ih =>
        rw [List.foldl_cons]
        rw [ih]
        dsimp only
        split <;> split <;> rfl
  split
  · next ho => simp [sxCount, ho, hw1]
  · next ho =>
      split
      · simp [sxCount, if_neg ho, hw1]
      · simp [sxCount, if_neg ho, hw1]

theorem sxAllocStep_worksize_false (st : SXAllocState) (e : SXAllocEl) :
    ((sxAllocStep false st e).1).worksize = st.worksize + sxCount e := by
  rw [sxAllocStep]
  generalize hfold : (List.range e.ndeps).reverse.foldl _ st = st1
  have hw1 : st1.worksize = st.worksize := by
    subst hfold
    generalize (List.range e.ndeps).reverse = l
    induction l generalizing st with
    | nil => rfl
    | cons c r ih =>
        rw [List.foldl_cons]
        rw [ih]
        dsimp only
        split <;> split <;> rfl
  split
  · next ho => simp [sxCount, ho, hw1]
  · next ho =>
      have hcond : ¬((false : Bool) = true ∧ st1.unused ≠ []) := by simp
      rw [if_neg hcond]
      simp [sxCount, if_neg ho, hw1]

theorem sxAllocFold_worksize_le (live : Bool) :
    ∀ (alg : List SXAllocEl) (st : SXAllocState),
      ((alg.foldl (fun st e => (sxAllocStep live st e).1) st)).worksize
        ≤ st.worksize + (alg.map sxCount).sum := by
  intro alg
  induction alg with
  | nil => intro st; simp
  | cons e rest ih =>
      intro st
      rw [List.foldl_cons]
      have h1 := ih (sxAllocStep live st e).1
      have h2 := sxAllocStep_worksize_le live st e
      simp only [List.map_cons, List.sum_cons]
      omega

theorem sxAllocFold_worksize_false :
    ∀ (alg : List SXAllocEl) (st : SXAllocState),
      ((alg.foldl (fun st e => (sxAllocStep false st e).1) st)).worksize
        = st.worksize + (alg.map sxCount).sum := by
  intro alg
  induction alg with
  | nil => intro st; simp
  | cons e rest ih =>
      intro st
      rw [List.foldl_cons]
      have h1 := ih (sxAllocStep false st e).1
      have h2 := sxAllocStep_worksize_false st e
      simp only [List.map_cons, List.sum_cons]
      omega

/-- C6: for every algorithm (and any reference counts and initial `place`
contents), the work-array size produced by the placement walk with
`live_variables=true` is at most the one produced with
`live_variables=false`, in the MX layer and in the SX layer alike. -/
theorem live_worksize_le_nolive_worksize :
    ∀ (nodeSp : Nat → Sp) (refc0 p0 : Nat → Int) (alg : List MXAllocEl)
      (refs0 q0 : Nat → Int) (salg : List SXAllocEl),
      (mxAllocRun true nodeSp refc0 p0 alg).worksize
          ≤ (mxAllocRun false nodeSp refc0 p0 alg).worksize
        ∧ (sxAllocRun true refs0 q0 salg).worksize
          ≤ (sxAllocRun false refs0 q0 salg).worksize := by
  intro nodeSp refc0 p0 alg refs0 q0 salg
  constructor
  · rw [mxAllocRun, mxAllocRun, mxAllocFold_worksize_false]
    exact mxAllocFold_worksize_le true nodeSp alg _
  · rw [sxAllocRun, sxAllocRun, sxAllocFold_worksize_false]
    exact sxAllocFold_worksize_le true salg _

theorem replayAnn_append (l l' : List StkOp) :
    ∀ (p : Nat) (s : List (Int × Nat)),
      replayAnn (l ++ l') p s =
        match replayAnn l p s with
        | none => none
        | some s' => replayAnn l' (p + l.length) s' := by
  induction l with
  | nil => intro p s; simp [replayAnn]
  | cons op r ih =>
      intro p s
      cases op with
      | push v =>
          rw [List.cons_append]
          simp only [replayAnn]
          rw [ih]
          simp [Nat.add_comm, Nat.add_assoc, Nat.add_left_comm]
      | pop v =>
          rw [List.cons_append]
          simp only [replayAnn]
          cases s with
          | nil => rfl
          | cons e0 s' =>
              obtain ⟨w, j⟩ := e0
              by_cases hv : v = w
              · simp only [if_pos hv]
                rw [ih]
                simp [Nat.add_comm, Nat.add_assoc, Nat.add_left_comm]
              · simp only [if_neg hv]

theorem seg_extend (L : List StkOp) (op : StkOp) (j p : Nat)
    (hp : L[p]? = some op) (hj : j < p) :
    seg L j (p + 1) = seg L j p ++ [op] := by
  unfold seg
  rw [List.take_succ, hp]
  have hlen : j + 1 ≤ (L.take p).length := by
    rw [List.length_take]
    have : p < L.length := (List.getElem?_eq_some.mp hp).1
    omega
  rw [List.drop_append_of_le_length hlen]
  rfl

theorem seg_self (L : List StkOp) (p : Nat) : seg L p (p + 1) = [] := by
  unfold seg
  apply List.drop_eq_nil_of_le
  have := List.length_take_le (p + 1) L
  omega

theorem cntPush_append (a b : List StkOp) :
    cntPush (a ++ b) = cntPush a + cntPush b := List.countP_append _ _ _

theorem cntPop_append (a b : List StkOp) :
    cntPop (a ++ b) = cntPop a + cntPop b := List.countP_append _ _ _

theorem cntPush_push (v : Int) : cntPush [.push v] = 1 := rfl

theorem cntPop_push (v : Int) : cntPop [.push v] = 0 := rfl

theorem cntPush_pop (v : Int) : cntPush [.pop v] = 0 := rfl

theorem cntPop_pop (v : Int) : cntPop [.pop v] = 1 := rfl

theorem stackMatchGo (L : List StkOp) :
    ∀ (rest pre : List StkOp) (s : List (Int × Nat)),
      L = pre ++ rest →
      (∀ m e, s[m]? = some e → ElemInv L pre.length e m) →
      (replayAnn rest pre.length s).isSome →
      ∀ i v, L[i]? = some (.pop v) → pre.length ≤ i → StkMatch L i v := by
  intro rest
  induction rest with
  | nil =>
      intro pre s hL _ _ i v hi hige
      have : i < L.length := (List.getElem?_eq_some.mp hi).1
      rw [hL, List.append_nil] at this
      omega
  | cons op r ih =>
      intro pre s hL hinv hsome i v hi hige
      have hgetp : L[pre.length]? = some op := by
        rw [hL, List.getElem?_append_right (Nat.le_refl _)]
        simp
      have hL' : L = (pre ++ [op]) ++ r := by rw [hL]; simp
      have hlen' : (pre ++ [op]).length = pre.length + 1 := by simp
      cases op with
      | push v' =>
          simp only [replayAnn] at hsome
          have hinv' : ∀ m e, ((v', pre.length) :: s)[m]? = some e →
              ElemInv L (pre.length + 1) e m := by
            intro m e hme
            match m, hme with
            | 0, hme =>
                have he : e = (v', pre.length) := by
                  simp at hme
                  exact hme.symm
                subst he
                refine ⟨Nat.lt_succ_self _, hgetp, ?_, ?_⟩
                · rw [seg_self]; rfl
                · intro q hq1 hq2
                  have : q = pre.length + 1 := by omega
                  subst this
                  rw [seg_self]
                  simp [cntPush, cntPop]
            | Nat.succ m', hme =>
                have hm' := hinv m' e (by simpa using hme)
                obtain ⟨h1, h2, h3, h4⟩ := hm'
                refine ⟨Nat.lt_succ_of_lt h1, h2, ?_, ?_⟩
                · rw [seg_extend L (.push v') e.2 pre.length hgetp h1,
                    cntPush_append, cntPop_append, cntPush_push, cntPop_push]
                  omega
                · intro q hq1 hq2
                  rcases Nat.lt_or_ge q (pre.length + 1) with hq | hq
                  · exact h4 q hq1 (by omega)
                  · have : q = pre.length + 1 := by omega
                    subst this
                    rw [seg_extend L (.push v') e.2 pre.length hgetp h1,
                      cntPush_append, cntPop_append, cntPush_push, cntPop_push]
                    have := h4 pre.length h1 (Nat.le_refl _)
                    omega
          rcases Nat.eq_or_lt_of_le hige with heq | hlt
          · exfalso
            rw [heq] at hgetp
            rw [hi] at hgetp
            simp at hgetp
          · exact ih (pre ++ [StkOp.push v']) ((v', pre.length) :: s)
              hL' (by rw [hlen']; exact hinv')
              (by rw [hlen']; exact hsome) i v hi (by omega)
      | pop v' =>
          cases s with
          | nil => simp [replayAnn] at hsome
          | cons e0 s' =>
              obtain ⟨w, j⟩ := e0
              simp only [replayAnn] at hsome
              by_cases hv : v' = w
              · rw [if_pos hv] at hsome
                have h0 := hinv 0 (w, j) (by simp)
                obtain ⟨h1, h2, h3, h4⟩ := h0
                rcases Nat.eq_or_lt_of_le hige with heq | hlt
                · -- the pop we are asked about is this very operation
                  have hvv : v = v' := by
                    rw [heq] at hgetp
                    rw [hi] at hgetp
                    simp at hgetp
                    exact hgetp
                  refine ⟨j, ?_, ?_, ?_, ?_⟩
                  · omega
                  · rw [h2, hvv, hv]
                  · rw [← heq]
                    simpa using h3
                  · intro q hq1 hq2
                    exact h4 q hq1 (by omega)
                · have hinv' : ∀ m e, s'[m]? = some e →
                      ElemInv L (pre.length + 1) e m := by
                    intro m e hme
                    have hm := hinv (m + 1) e (by simpa using hme)
                    obtain ⟨g1, g2, g3, g4⟩ := hm
                    refine ⟨Nat.lt_succ_of_lt g1, g2, ?_, ?_⟩
                    · rw [seg_extend L (.pop v') e.2 pre.length hgetp g1,
                        cntPush_append, cntPop_append, cntPush_pop, cntPop_pop]
                      omega
                    · intro q hq1 hq2
                      rcases Nat.lt_or_ge q (pre.length + 1) with hq | hq
                      · exact g4 q hq1 (by omega)
                      · have : q = pre.length + 1 := by omega
                        subst this
                        rw [seg_extend L (.pop v') e.2 pre.length hgetp g1,
                          cntPush_append, cntPop_append, cntPush_pop, cntPop_pop]
                        omega
                  exact ih (pre ++ [StkOp.pop v']) s' hL'
                    (by rw [hlen']; exact hinv')
                    (by rw [hlen']; exact hsome) i v hi (by omega)
              · rw [if_neg hv] at hsome
                simp at hsome

/-- Valid traces (from the empty stack) satisfy the LIFO matching. -/
theorem stackMatchAll (L : List StkOp) (h : (replayAnn L 0 []).isSome) :
    ∀ i v, L[i]? = some (.pop v) → StkMatch L i v := by
  intro i v hi
  exact stackMatchGo L L [] [] rfl (by intro m e hme; simp at hme) h i v hi
    (Nat.zero_le i)

theorem classOps_append (sp : Sp) (l l' : List AllocEv) :
    classOps sp (l ++ l') = classOps sp l ++ classOps sp l' :=
  List.filterMap_append ..

theorem classOps_free_eq (sp : Sp) (v : Int) :
    classOps sp [.free sp v] = [.push v] := by simp [classOps]

theorem classOps_free_ne (sp sp' : Sp) (v : Int) (h : ¬ sp = sp') :
    classOps sp' [.free sp v] = [] := by simp [classOps, h]

theorem classOps_reuse_eq (sp : Sp) (v : Int) :
    classOps sp [.reuse sp v] = [.pop v] := by simp [classOps]

theorem classOps_reuse_ne (sp sp' : Sp) (v : Int) (h : ¬ sp = sp') :
    classOps sp' [.reuse sp v] = [] := by simp [classOps, h]

theorem classOps_fresh (sp sp' : Sp) (w : Nat) :
    classOps sp' [.fresh sp w] = [] := by simp [classOps]

theorem getElem?_append_old {α : Type} (l : List α) (x : α) (j : Nat)
    (h : l[j]? = some x) : ∀ (e : α), (l ++ [e])[j]? = some x := by
  intro e
  have hj : j < l.length := (List.getElem?_eq_some.mp h).1
  rw [List.getElem?_append_left hj]
  exact h

theorem getElem?_append_new {α : Type} (l : List α) (e : α) :
    (l ++ [e])[l.length]? = some e := by simp

theorem getElem?_append_cases {α : Type} (l : List α) (e x : α) (t : Nat)
    (h : (l ++ [e])[t]? = some x) :
    (t < l.length ∧ l[t]? = some x) ∨ (t = l.length ∧ x = e) := by
  have ht : t < l.length + 1 := by
    have := (List.getElem?_eq_some.mp h).1
    simpa using this
  rcases Nat.lt_or_ge t l.length with h1 | h1
  · left
    refine ⟨h1, ?_⟩
    rw [List.getElem?_append_left h1] at h
    exact h
  · right
    have hte : t = l.length := by omega
    subst hte
    rw [getElem?_append_new] at h
    injection h with h2
    exact ⟨rfl, h2.symm⟩

theorem logInv_pushFree (st : MXAllocState) (sp : Sp) (v : Int)
    (h : LogInv st) : LogInv (pushFree st sp v) := by
  obtain ⟨hm, hp, ha⟩ := h
  refine ⟨?_, ?_, ?_⟩
  · unfold MembInv
    intro sp' w hw
    simp only [pushFree] at hw
    by_cases hsp : sp' = sp
    · subst hsp
      rw [if_pos rfl] at hw
      rcases List.mem_cons.mp hw with hw | hw
      · subst hw
        refine ⟨st.log.length, ?_⟩
        show (st.log ++ [AllocEv.free sp' w])[st.log.length]? = _
        exact getElem?_append_new st.log _
      · obtain ⟨j, hj⟩ := hm sp' w hw
        exact ⟨j, getElem?_append_old st.log _ j hj _⟩
    · rw [if_neg hsp] at hw
      obtain ⟨j, hj⟩ := hm sp' w hw
      exact ⟨j, getElem?_append_old st.log _ j hj _⟩
  · unfold PastInv
    intro t sp' w hw
    simp only [pushFree] at hw
    rcases getElem?_append_cases st.log _ _ t hw with ⟨h1, h2⟩ | ⟨h1, h2⟩
    · obtain ⟨j, hj1, hj2⟩ := hp t sp' w h2
      exact ⟨j, hj1, getElem?_append_old st.log _ j hj2 _⟩
    · exact absurd h2 (by simp)
  · unfold AnnInv
    intro sp'
    obtain ⟨s, hs1, hs2⟩ := ha sp'
    simp only [pushFree, classOps_append]
    by_cases hsp : sp = sp'
    · subst hsp
      refine ⟨(v, (classOps sp st.log).length) :: s, ?_, ?_⟩
      · rw [replayAnn_append, hs1, classOps_free_eq]
        simp [replayAnn]
      · rw [if_pos rfl]
        simp [hs2]
    · refine ⟨s, ?_, ?_⟩
      · rw [replayAnn_append, hs1, classOps_free_ne sp sp' v hsp]
        rfl
      · rw [hs2, if_neg (by intro hc; exact hsp hc.symm)]

theorem logInv_reuse (st : MXAllocState) (sp : Sp)
    (hne : st.unused sp ≠ []) (h : LogInv st) (r : Nat) :
    LogInv { st with
      unused := fun s => if s = sp then (st.unused s).tail else st.unused s,
      place := upd st.place r ((st.unused sp).headD 0),
      log := st.log ++ [.reuse sp ((st.unused sp).headD 0)] } := by
  obtain ⟨hm, hp, ha⟩ := h
  have hvmem : (st.unused sp).headD 0 ∈ st.unused sp := by
    cases hu : st.unused sp with
    | nil => exact absurd hu hne
    | cons a l => simp [hu]
  refine ⟨?_, ?_, ?_⟩
  · unfold MembInv
    intro sp' w hw
    simp only at hw
    have hw' : w ∈ st.unused sp' := by
      by_cases hsp : sp' = sp
      · subst hsp
        rw [if_pos rfl] at hw
        exact List.mem_of_mem_tail hw
      · rw [if_neg hsp] at hw
        exact hw
    obtain ⟨j, hj⟩ := hm sp' w hw'
    exact ⟨j, getElem?_append_old st.log _ j hj _⟩
  · unfold PastInv
    intro t sp' w hw
    simp only at hw
    rcases getElem?_append_cases st.log _ _ t hw with ⟨h1, h2⟩ | ⟨h1, h2⟩
    · obtain ⟨j, hj1, hj2⟩ := hp t sp' w h2
      exact ⟨j, hj1, getElem?_append_old st.log _ j hj2 _⟩
    · obtain ⟨hsp, hwv⟩ : sp' = sp ∧ w = (st.unused sp).headD 0 := by
        injection h2 with h3 h4
        exact ⟨h3, h4⟩
      subst hsp
      subst hwv
      obtain ⟨j, hj⟩ := hm sp' _ hvmem
      refine ⟨j, ?_, getElem?_append_old st.log _ j hj _⟩
      have := (List.getElem?_eq_some.mp hj).1
      omega
  · unfold AnnInv
    intro sp'
    obtain ⟨s, hs1, hs2⟩ := ha sp'
    simp only [classOps_append]
    by_cases hsp : sp = sp'
    · subst hsp
      cases hu : st.unused sp with
      | nil => exact absurd hu hne
      | cons a l =>
          have hva : (st.unused sp).headD 0 = a := by rw [hu]; rfl
          cases s with
          | nil =>
              rw [hu] at hs2
              simp at hs2
          | cons e0 s'' =>
              obtain ⟨w0, j0⟩ := e0
              have hs2' : w0 = a ∧ s''.map Prod.fst = l := by
                rw [hu] at hs2
                simpa using hs2
              refine ⟨s'', ?_, ?_⟩
              · rw [replayAnn_append, hs1, classOps_reuse_eq]
                simp [replayAnn, hva, hs2'.1]
              · dsimp only
                rw [if_pos rfl]
                simpa using hs2'.2
    · refine ⟨s, ?_, ?_⟩
      · rw [replayAnn_append, hs1, classOps_reuse_ne sp sp' _ hsp]
        rfl
      · rw [hs2]
        rw [if_neg (by intro hc; exact hsp hc.symm)]

theorem logInv_fresh (st : MXAllocState) (sp : Sp) (r : Nat) (h : LogInv st) :
    LogInv { st with
      place := upd st.place r (st.worksize : Int),
      worksize := st.worksize + 1,
      log := st.log ++ [.fresh sp st.worksize] } := by
  obtain ⟨hm, hp, ha⟩ := h
  refine ⟨?_, ?_, ?_⟩
  · unfold MembInv
    intro sp' w hw
    obtain ⟨j, hj⟩ := hm sp' w hw
    exact ⟨j, getElem?_append_old st.log _ j hj _⟩
  · unfold PastInv
    intro t sp' w hw
    simp only at hw
    rcases getElem?_append_cases st.log _ _ t hw with ⟨h1, h2⟩ | ⟨h1, h2⟩
    · obtain ⟨j, hj1, hj2⟩ := hp t sp' w h2
      exact ⟨j, hj1, getElem?_append_old st.log _ j hj2 _⟩
    · exact absurd h2 (by simp)
  · unfold AnnInv
    intro sp'
    obtain ⟨s, hs1, hs2⟩ := ha sp'
    refine ⟨s, ?_, hs2⟩
    rw [classOps_append, replayAnn_append, hs1, classOps_fresh]
    rfl

theorem logInv_mxFreeArg (live : Bool) (nodeSp : Nat → Sp)
    (st : MXAllocState) (a : Int) (h : LogInv st) :
    LogInv (mxFreeArg live nodeSp st a).1 := by
  rw [mxFreeArg]
  split
  · exact h
  · dsimp only
    split
    · exact logInv_pushFree _ _ _ h
    · exact h

theorem logInv_mxFreeRange (live : Bool) (nodeSp : Nat → Sp)
    (st : MXAllocState) (arg : List Int) (first last : Nat)
    (h : LogInv st) : LogInv (mxFreeRange live nodeSp st arg first last).1 := by
  rw [mxFreeRange]
  generalize (List.range' first (last - first)).reverse = l
  induction l generalizing st arg with
  | nil => exact h
  | cons c r ih =>
      rw [List.foldl_cons]
      exact ih _ _ (logInv_mxFreeArg live nodeSp st (arg.getD c (-1)) h)

theorem logInv_mxAllocResList (live : Bool) :
    ∀ (res : List Int) (sps : List Sp) (st : MXAllocState),
      LogInv st → LogInv (mxAllocResList live st res sps).1 := by
  intro res
  induction res with
  | nil => intro sps st h; exact h
  | cons r rest ih =>
      intro sps st h
      rw [mxAllocResList]
      dsimp only
      split
      · exact ih sps.tail st h
      · split
        · next hcond =>
            exact ih sps.tail _ (logInv_reuse st (sps.headD 0) hcond.2 h r.toNat)
        · exact ih sps.tail _ (logInv_fresh st (sps.headD 0) r.toNat h)

theorem logInv_mxAllocStep (live : Bool) (nodeSp : Nat → Sp)
    (st : MXAllocState) (e : MXAllocEl) (h : LogInv st) :
    LogInv (mxAllocStep live nodeSp st e).1 := by
  rw [mxAllocStep]
  dsimp only
  split
  · exact logInv_mxFreeRange live nodeSp st e.arg 0 _ h
  · exact logInv_mxFreeRange live nodeSp _ _ _ _
      (logInv_mxAllocResList live e.res e.resSp _
        (logInv_mxFreeRange live nodeSp st e.arg 0 _ h))

theorem logInv_mxAllocFold (live : Bool) (nodeSp : Nat → Sp) :
    ∀ (alg : List MXAllocEl) (st : MXAllocState), LogInv st →
      LogInv (alg.foldl (fun st e => (mxAllocStep live nodeSp st e).1) st) := by
  intro alg
  induction alg with
  | nil => intro st h; exact h
  | cons e rest ih =>
      intro st h
      rw [List.foldl_cons]
      exact ih _ (logInv_mxAllocStep live nodeSp st e h)

theorem logInv_mxAllocRun (live : Bool) (nodeSp : Nat → Sp)
    (refc0 p0 : Nat → Int) (alg : List MXAllocEl) :
    LogInv (mxAllocRun live nodeSp refc0 p0 alg) := by
  rw [mxAllocRun]
  refine logInv_mxAllocFold live nodeSp alg _ ⟨?_, ?_, ?_⟩
  · intro sp v hv; simp at hv
  · intro t sp v hv; simp at hv
  · intro sp; exact ⟨[], rfl, rfl⟩

/-- C7: during MX slot allocation with live variables enabled, a reuse pops
the free LIFO keyed by the new result's sparsity handle, so the slot it
returns was freed under a pointer-identical sparsity handle — the first
conjunct says every logged reuse of class `sp` is preceded by a free of the
same slot into the same class, so a slot freed under a different handle is
never reused for this result; the second conjunct says that within one
sparsity class reuse is last-in-first-out: restricted to one class, every
pop in the log matches the most recent unmatched push. -/
theorem mx_slot_reuse_discipline
    (nodeSp : Nat → Sp) (refc0 p0 : Nat → Int) (alg : List MXAllocEl) :
    (∀ (t : Nat) (sp : Sp) (v : Int),
        (mxAllocRun true nodeSp refc0 p0 alg).log[t]? =
            some (AllocEv.reuse sp v) →
          ∃ j : Nat, j < t ∧
            (mxAllocRun true nodeSp refc0 p0 alg).log[j]? =
              some (AllocEv.free sp v))
      ∧ ∀ (sp : Sp) (i : Nat) (v : Int),
          (classOps sp (mxAllocRun true nodeSp refc0 p0 alg).log)[i]? =
              some (StkOp.pop v) →
            StkMatch (classOps sp (mxAllocRun true nodeSp refc0 p0 alg).log)
              i v := by
  obtain ⟨hm, hp, ha⟩ := logInv_mxAllocRun true nodeSp refc0 p0 alg
  constructor
  · exact hp
  · intro sp i v hi
    obtain ⟨s, hs1, _⟩ := ha sp
    exact stackMatchAll _ (by rw [hs1]; rfl) i v hi

/-- Witness for C7 on a concrete three-record algorithm: the first record
writes node 0, the second reads it (freeing its slot) and writes node 1,
the third record's result reuses the freed slot of the same sparsity. -/
theorem mx_slot_reuse_discipline_witness :
    (∃ j : Nat, j < 3 ∧
        (mxAllocRun true (fun _ => 7) (fun n => if n = 0 then 1 else 0)
            (fun _ => 0)
            [⟨MOp.other, [], [0], 0, [7]⟩, ⟨MOp.other, [0], [1], 0, [7]⟩,
             ⟨MOp.other, [], [2], 0, [7]⟩]).log[j]? =
          some (AllocEv.free 7 0))
      ∧ StkMatch (classOps 7
          (mxAllocRun true (fun _ => 7) (fun n => if n = 0 then 1 else 0)
            (fun _ => 0)
            [⟨MOp.other, [], [0], 0, [7]⟩, ⟨MOp.other, [0], [1], 0, [7]⟩,
             ⟨MOp.other, [], [2], 0, [7]⟩]).log) 1 0 := by
  constructor
  · exact (mx_slot_reuse_discipline (fun _ => 7)
      (fun n => if n = 0 then 1 else 0) (fun _ => 0)
      [⟨MOp.other, [], [0], 0, [7]⟩, ⟨MOp.other, [0], [1], 0, [7]⟩,
       ⟨MOp.other, [], [2], 0, [7]⟩]).1 3 7 0 (by decide)
  · exact (mx_slot_reuse_discipline (fun _ => 7)
      (fun n => if n = 0 then 1 else 0) (fun _ => 0)
      [⟨MOp.other, [], [0], 0, [7]⟩, ⟨MOp.other, [0], [1], 0, [7]⟩,
       ⟨MOp.other, [], [2], 0, [7]⟩]).2 7 1 0 (by decide)

/-! ### The numeric evaluator writes every covered output -/

theorem getD_set_self {α : Type} (l : List α) (i : Nat) (a d : α)
    (h : i < l.length) : (l.set i a).getD i d = a := by
  rw [List.getD_eq_getElem?_getD]
  simp [List.getElem?_set_self, h]

theorem getD_set_other {α : Type} (l : List α) (i k : Nat) (a d : α)
    (h : i ≠ k) : (l.set i a).getD k d = l.getD k d := by
  rw [List.getD_eq_getElem?_getD, List.getD_eq_getElem?_getD,
    List.getElem?_set_ne h]

theorem mxNumStep_outs_len (f : MXNumCtx V) (inputs : List V)
    (s : MXNumState V) (i : Nat) (e : MAlgEl) :
    (mxNumStep f inputs s i e).outs.length = s.outs.length := by
  obtain ⟨op, arg, res⟩ := e
  cases op <;> simp [mxNumStep]

theorem mxNumStep_written_mono (f : MXNumCtx V) (inputs : List V)
    (s : MXNumState V) (i : Nat) (e : MAlgEl) (k : Nat)
    (h : s.outs.getD k none ≠ none) :
    (mxNumStep f inputs s i e).outs.getD k none ≠ none := by
  obtain ⟨op, arg, res⟩ := e
  cases op
  all_goals first
    | (simp only [mxNumStep]; exact h)
    | skip
  -- OP_OUTPUT: the only branch that touches the output buffers
  simp only [mxNumStep]
  by_cases hk : (res.headD (-1)).toNat = k
  · subst hk
    by_cases hlen : (res.headD (-1)).toNat < s.outs.length
    · rw [getD_set_self _ _ _ _ hlen]
      simp
    · rw [List.set_eq_of_length_le (by omega)]
      exact h
  · rw [getD_set_other _ _ _ _ _ hk]
    exact h

theorem mxNumStep_writes (f : MXNumCtx V) (inputs : List V)
    (s : MXNumState V) (i : Nat) (e : MAlgEl) (k : Nat)
    (hop : e.op = MOp.output) (hres : e.res.headD (-1) = (k : Int))
    (hk : k < s.outs.length) :
    (mxNumStep f inputs s i e).outs.getD k none ≠ none := by
  obtain ⟨op, arg, res⟩ := e
  simp only at hop hres
  subst hop
  simp only [mxNumStep, hres]
  rw [show ((k : Int)).toNat = k from rfl] at *
  rw [getD_set_self _ _ _ _ hk]
  simp

theorem mxRunFold_written (f : MXNumCtx V) (inputs : List V) :
    ∀ (l : List (Nat × MAlgEl)) (s : MXNumState V) (k : Nat),
      k < s.outs.length →
      ((∃ p ∈ l, p.2.op = MOp.output ∧ p.2.res.headD (-1) = (k : Int)) ∨
        s.outs.getD k none ≠ none) →
      ((l.foldl (fun s ie => mxNumStep f inputs s ie.1 ie.2) s)).outs.getD
        k none ≠ none := by
  intro l
  induction l with
  | nil =>
      intro s k hk h
      rcases h with ⟨p, hp, _⟩ | h
      · simp at hp
      · exact h
  | cons p rest ih =>
      intro s k hk h
      rw [List.foldl_cons]
      have hk' : k < (mxNumStep f inputs s p.1 p.2).outs.length := by
        rw [mxNumStep_outs_len]; exact hk
      rcases h with ⟨q, hq, hq1, hq2⟩ | h
      · rcases List.mem_cons.mp hq with hq | hq
        · subst hq
          exact ih _ k hk' (Or.inr
            (mxNumStep_writes f inputs s q.1 q.2 k hq1 hq2 hk))
        · exact ih _ k hk' (Or.inl ⟨q, hq, hq1, hq2⟩)
      · exact ih _ k hk' (Or.inr
          (mxNumStep_written_mono f inputs s p.1 p.2 k h))

theorem mxRunTape_written (f : MXNumCtx V) (inputs : List V) (k : Nat)
    (hk : k < f.nout)
    (hcov : ∃ e ∈ f.alg, e.op = MOp.output ∧ e.res.headD (-1) = (k : Int)) :
    (mxRunTape f inputs).outs.getD k none ≠ none := by
  obtain ⟨e, he, h1, h2⟩ := hcov
  obtain ⟨i, hi⟩ := List.mem_iff_getElem?.mp he
  have hmem : (i, e) ∈ f.alg.enum := by
    apply List.mem_iff_getElem?.mpr
    exact ⟨i, by simp [List.getElem?_enum, hi]⟩
  rw [mxRunTape]
  exact mxRunFold_written f inputs f.alg.enum _ k (by simp [hk])
    (Or.inl ⟨(i, e), hmem, h1, h2⟩)

theorem sxNumStep_outs_len (g : SXNumCtx V) (inputs : List (List V))
    (s : SXNumState V) (e : SAlgEl V) :
    (sxNumStep g inputs s e).outs.length = s.outs.length := by
  obtain ⟨op, i0, i1, i2, d⟩ := e
  cases op <;> simp [sxNumStep]

theorem sxNumStep_row_len (g : SXNumCtx V) (inputs : List (List V))
    (s : SXNumState V) (e : SAlgEl V) (k : Nat) :
    ((sxNumStep g inputs s e).outs.getD k []).length =
      (s.outs.getD k []).length := by
  obtain ⟨op, i0, i1, i2, d⟩ := e
  cases op
  all_goals simp only [sxNumStep]
  by_cases hk : i0 = k
  · subst hk
    by_cases hlen : i0 < s.outs.length
    · rw [getD_set_self _ _ _ _ hlen]
      simp
    · rw [List.set_eq_of_length_le (by omega)]
  · rw [getD_set_other _ _ _ _ _ hk]

theorem sxNumStep_cell_mono (g : SXNumCtx V) (inputs : List (List V))
    (s : SXNumState V) (e : SAlgEl V) (k nz : Nat)
    (h : ((s.outs.getD k []).getD nz none) ≠ none) :
    (((sxNumStep g inputs s e).outs.getD k []).getD nz none) ≠ none := by
  obtain ⟨op, i0, i1, i2, d⟩ := e
  cases op <;> simp only [sxNumStep] <;> try exact h
  by_cases hk : i0 = k
  · subst hk
    by_cases hlen : i0 < s.outs.length
    · rw [getD_set_self _ _ _ _ hlen]
      by_cases hnz : i2 = nz
      · subst hnz
        by_cases hrl : i2 < (s.outs.getD i0 []).length
        · rw [getD_set_self _ _ _ _ hrl]
          simp
        · rw [List.set_eq_of_length_le (by omega)]
          exact h
      · rw [getD_set_other _ _ _ _ _ hnz]
        exact h
    · rw [List.set_eq_of_length_le (by omega)]
      exact h
  · rw [getD_set_other _ _ _ _ _ hk]
    exact h

theorem sxNumStep_writes (g : SXNumCtx V) (inputs : List (List V))
    (s : SXNumState V) (e : SAlgEl V) (k nz : Nat)
    (hop : e.op = SXOp.output) (h0 : e.i0 = k) (h2 : e.i2 = nz)
    (hk : k < s.outs.length) (hnz : nz < (s.outs.getD k []).length) :
    (((sxNumStep g inputs s e).outs.getD k []).getD nz none) ≠ none := by
  obtain ⟨op, i0, i1, i2, d⟩ := e
  simp only at hop h0 h2
  subst hop h0 h2
  simp only [sxNumStep]
  rw [getD_set_self _ _ _ _ hk, getD_set_self _ _ _ _ hnz]
  simp

theorem sxRunFold_written (g : SXNumCtx V) (inputs : List (List V)) :
    ∀ (l : List (SAlgEl V)) (s : SXNumState V) (k nz : Nat),
      k < s.outs.length → nz < (s.outs.getD k []).length →
      ((∃ e ∈ l, e.op = SXOp.output ∧ e.i0 = k ∧ e.i2 = nz) ∨
        ((s.outs.getD k []).getD nz none) ≠ none) →
      ((l.foldl (sxNumStep g inputs) s).outs.getD k []).getD nz none
        ≠ none := by
  intro l
  induction l with
  | nil =>
      intro s k nz hk hnz h
      rcases h with ⟨e, he, _⟩ | h
      · simp at he
      · exact h
  | cons e rest ih =>
      intro s k nz hk hnz h
      rw [List.foldl_cons]
      have hk' : k < (sxNumStep g inputs s e).outs.length := by
        rw [sxNumStep_outs_len]; exact hk
      have hnz' : nz < ((sxNumStep g inputs s e).outs.getD k []).length := by
        rw [sxNumStep_row_len]; exact hnz
      rcases h with ⟨q, hq, hq1, hq2, hq3⟩ | h
      · rcases List.mem_cons.mp hq with hq | hq
        · subst hq
          exact ih _ k nz hk' hnz' (Or.inr
            (sxNumStep_writes g inputs s q k nz hq1 hq2 hq3 hk hnz))
        · exact ih _ k nz hk' hnz' (Or.inl ⟨q, hq, hq1, hq2, hq3⟩)
      · exact ih _ k nz hk' hnz' (Or.inr
          (sxNumStep_cell_mono g inputs s e k nz h))

theorem sxRunTape_written (g : SXNumCtx V) (inputs : List (List V))
    (k nz : Nat) (hk : k < g.outSizes.length)
    (hnz : nz < g.outSizes.getD k 0)
    (hcov : ∃ e ∈ g.alg, e.op = SXOp.output ∧ e.i0 = k ∧ e.i2 = nz) :
    (((sxRunTape g inputs).outs.getD k []).getD nz none) ≠ none := by
  rw [sxRunTape]
  have hrow : ((g.outSizes.map fun n => List.replicate n (none : Option V)
      ).getD k []).length = g.outSizes.getD k 0 := by
    rw [List.getD_eq_getElem?_getD, List.getD_eq_getElem?_getD,
      List.getElem?_map, List.getElem?_eq_getElem hk]
    simp
  exact sxRunFold_written g inputs g.alg _ k nz (by simp [hk])
    (by rw [hrow]; exact hnz) (Or.inl hcov)

/-- C1: both numeric evaluators first test the free-variable list: when it
is non-empty, `evaluate()` raises the free-variable error before executing
any tape record (no output is produced); when it is empty, the whole tape
runs and every declared output buffer covered by an `OP_OUTPUT` tape record
has been written. -/
theorem evaluate_free_variable_gate {V : Type} (f : MXNumCtx V)
    (inputs : List V) (g : SXNumCtx V) (sinputs : List (List V)) :
    (f.freeVars ≠ [] → mxEvaluate f inputs = .error .freeVariable)
    ∧ (f.freeVars = [] →
        mxEvaluate f inputs = .ok (mxRunTape f inputs).outs
        ∧ ∀ k, k < f.nout →
            (∃ e ∈ f.alg, e.op = MOp.output ∧ e.res.headD (-1) = (k : Int)) →
            (mxRunTape f inputs).outs.getD k none ≠ none)
    ∧ (g.freeVars ≠ [] → sxEvaluate g sinputs = .error .freeVariable)
    ∧ (g.freeVars = [] →
        sxEvaluate g sinputs = .ok (sxRunTape g sinputs).outs
        ∧ ∀ k nz, k < g.outSizes.length → nz < g.outSizes.getD k 0 →
            (∃ e ∈ g.alg, e.op = SXOp.output ∧ e.i0 = k ∧ e.i2 = nz) →
            ((sxRunTape g sinputs).outs.getD k []).getD nz none ≠ none) := by
  refine ⟨?_, ?_, ?_, ?_⟩
  · intro h
    rw [mxEvaluate, if_pos h]
  · intro h
    refine ⟨by rw [mxEvaluate, if_neg (by simp [h])], ?_⟩
    intro k hk hcov
    exact mxRunTape_written f inputs k hk hcov
  · intro h
    rw [sxEvaluate, if_pos h]
  · intro h
    refine ⟨by rw [sxEvaluate, if_neg (by simp [h])], ?_⟩
    intro k nz hk hnz hcov
    exact sxRunTape_written g sinputs k nz hk hnz hcov

/-- Witness for C1 on concrete identity functions (with and without a free
variable) in both layers. -/
theorem evaluate_free_variable_gate_witness :
    (mxEvaluate
        (⟨[Sum.inl 0], [⟨MOp.input, [0], [0]⟩, ⟨MOp.output, [0], [0]⟩],
          1, 1, (0 : Int), fun _ _ => []⟩ : MXNumCtx Int) [5]
      = .error .freeVariable)
    ∧ (mxRunTape
        (⟨[], [⟨MOp.input, [0], [0]⟩, ⟨MOp.output, [0], [0]⟩],
          1, 1, (0 : Int), fun _ _ => []⟩ : MXNumCtx Int) [5]).outs.getD
        0 none ≠ none
    ∧ (sxEvaluate
        (⟨[Sum.inl 0], [⟨SXOp.input, 0, 0, 0, 0⟩, ⟨SXOp.output, 0, 0, 0, 0⟩],
          1, [1], (0 : Int), fun _ a _ => a⟩ : SXNumCtx Int) [[5]]
      = .error .freeVariable)
    ∧ ((sxRunTape
        (⟨[], [⟨SXOp.input, 0, 0, 0, 0⟩, ⟨SXOp.output, 0, 0, 0, 0⟩],
          1, [1], (0 : Int), fun _ a _ => a⟩ : SXNumCtx Int)
        [[5]]).outs.getD 0 []).getD 0 none ≠ none := by
  refine ⟨?_, ?_, ?_, ?_⟩
  · exact (evaluate_free_variable_gate _ [5]
      (⟨[], [], 0, [], (0 : Int), fun _ a _ => a⟩ : SXNumCtx Int)
      [[5]]).1 (by simp)
  · exact ((evaluate_free_variable_gate _ [5]
      (⟨[], [], 0, [], (0 : Int), fun _ a _ => a⟩ : SXNumCtx Int)
      [[5]]).2.1 rfl).2
      0 (by decide) ⟨⟨MOp.output, [0], [0]⟩, by decide, by decide, by decide⟩
  · exact (evaluate_free_variable_gate
      (⟨[], [], 0, 0, (0 : Int), fun _ _ => []⟩ : MXNumCtx Int) [5]
      _ [[5]]).2.2.1 (by simp)
  · exact ((evaluate_free_variable_gate
      (⟨[], [], 0, 0, (0 : Int), fun _ _ => []⟩ : MXNumCtx Int) [5]
      _ [[5]]).2.2.2 rfl).2 0 0 (by decide) (by decide)
      ⟨⟨SXOp.output, 0, 0, 0, 0⟩, by decide, by decide, by decide, by decide⟩

/-! ### Claim theorems on the pre-pass and the constructors -/

/-- C8 counterexample: on a forward entry the SX pre-pass does *not* zero
the work array — `sxSpInit true` leaves a non-zero word untouched — so the
claim that both propagators zero the whole work array before a forward pass
fails for the SX layer. -/
theorem sx_spInit_forward_no_zeroing :
    sxSpInit true [1] = [1] ∧ sxSpInit true [1] ≠ [0] := by
  exact ⟨rfl, by decide⟩

/-- C8 (amended): the MX pre-pass zeroes the whole work array on *every*
entry, forward or reverse; the SX pre-pass zeroes the whole work array only
on a reverse entry and leaves it unchanged on a forward entry. -/
theorem spInit_zeroing (fwd : Bool) (mwork : List (List BVec))
    (swork : List BVec) :
    mxSpInit fwd mwork = mwork.map (fun slot => slot.map (fun _ => 0))
    ∧ sxSpInit false swork = swork.map (fun _ => 0)
    ∧ sxSpInit true swork = swork := by
  exact ⟨rfl, rfl, rfl⟩

/-- C9 counterexample: the MX constructor performs no empty-output-list
check at all — constructing an MX function with an empty output list (and
an empty input list) succeeds. -/
theorem mx_ctor_empty_outputs_ok :
    mkMXFunction [] [] = .ok ([], []) := rfl

/-- All-symbolic input lists pass the MX fixing loop unchanged. -/
theorem mxFixInputs_all_symbolic :
    ∀ (l : List MXIn) (ind : Nat), (∀ x ∈ l, x.symbolic = true) →
      mxFixInputs ind l = .ok l := by
  intro l
  induction l with
  | nil => intro ind _; rfl
  | cons x xs ih =>
      intro ind h
      rw [mxFixInputs]
      rw [mxFixInput, if_pos (h x (by simp))]
      rw [ih (ind + 1) (fun y hy => h y (by simp [hy]))]
      rfl

/-- C9 (amended): only the SX constructor rejects an empty output list
(`casadi_assert(!outputv_.empty())`, after the duplicate check); the MX
constructor has no such check and succeeds on an empty output list whenever
its inputs are acceptable. -/
theorem empty_output_list_sx_only (sxin : List (List NodeId))
    (mxin : List MXIn) (h1 : hasDuplicates sxin.flatten = false)
    (h2 : ∀ x ∈ mxin, x.symbolic = true)
    (h3 : hasDuplicates (mxin.map MXIn.nodeId) = false) :
    mkSXFunction sxin [] = .error .emptyOutputList
    ∧ mkMXFunction mxin [] = .ok (mxin, []) := by
  constructor
  · rw [mkSXFunction, if_neg (by simp [h1])]
    rfl
  · rw [mkMXFunction, mxFixInputs_all_symbolic mxin 0 h2]
    show (if hasDuplicates (mxin.map MXIn.nodeId) then _ else _) = _
    rw [if_neg (by simp [h3])]

/-- Witness for C9 (amended) at concrete inputs. -/
theorem empty_output_list_sx_only_witness :
    mkSXFunction [[Sum.inl 0]] [] = .error .emptyOutputList
    ∧ mkMXFunction [⟨Sum.inl 0, true, false, 4, "x"⟩] []
      = .ok ([⟨Sum.inl 0, true, false, 4, "x"⟩], []) := by
  exact empty_output_list_sx_only [[Sum.inl 0]]
    [⟨Sum.inl 0, true, false, 4, "x"⟩] (by decide)
    (by intro x hx; simp at hx; rw [hx]) (by decide)

/-- The MX fixing loop on inputs that are all symbolic or empty: it
succeeds and replaces exactly the non-symbolic (empty) entries by fresh
symbols named "r"++index with the same sparsity. -/
theorem mxFixInputs_ok :
    ∀ (l : List MXIn) (ind : Nat),
      (∀ x ∈ l, x.symbolic = true ∨ x.empty = true) →
      ∃ l', mxFixInputs ind l = .ok l' ∧
        ∀ (k : Nat) (x : MXIn), l[k]? = some x → x.symbolic = false →
          l'[k]? = some ⟨Sum.inr (ind + k), true, x.empty, x.sp,
            "r" ++ toString (ind + k)⟩ := by
  intro l
  induction l with
  | nil =>
      intro ind _
      exact ⟨[], rfl, by intro k x hk; simp at hk⟩
  | cons x xs ih =>
      intro ind h
      obtain ⟨l', hl1, hl2⟩ := ih (ind + 1) (fun y hy => h y (by simp [hy]))
      by_cases hxs : x.symbolic = true
      · refine ⟨x :: l', ?_, ?_⟩
        · rw [mxFixInputs, mxFixInput, if_pos hxs, hl1]
          rfl
        · intro k y hk hy
          match k, hk with
          | 0, hk =>
              have hxy : x = y := by simpa using hk
              subst hxy
              rw [hy] at hxs
              exact absurd hxs (by simp)
          | Nat.succ k', hk =>
              have := hl2 k' y (by simpa using hk) hy
              simpa [Nat.add_assoc, Nat.add_comm 1 k'] using this
      · have hxe : x.empty = true := by
          rcases h x (by simp) with h' | h'
          · exact absurd h' hxs
          · exact h'
        have hxs' : x.symbolic = false := by
          cases hx2 : x.symbolic
          · rfl
          · exact absurd hx2 hxs
        refine ⟨⟨Sum.inr ind, true, x.empty, x.sp, "r" ++ toString ind⟩ :: l',
          ?_, ?_⟩
        · rw [mxFixInputs, mxFixInput, if_neg (by simp [hxs']),
            if_pos (by simp [hxe]), hl1]
          rfl
        · intro k y hk hy
          match k, hk with
          | 0, hk =>
              have hxy : x = y := by simpa using hk
              subst hxy
              simp
          | Nat.succ k', hk =>
              have := hl2 k' y (by simpa using hk) hy
              simpa [Nat.add_assoc, Nat.add_comm 1 k'] using this

/-- If some input is non-symbolic and non-empty, the fixing loop fails with
the non-symbolic-input error. -/
theorem mxFixInputs_bad :
    ∀ (l : List MXIn) (ind : Nat),
      (∃ x ∈ l, x.symbolic = false ∧ x.empty = false) →
      mxFixInputs ind l = .error .nonSymbolicInput := by
  intro l
  induction l with
  | nil =>
      intro ind h
      obtain ⟨x, hx, _⟩ := h
      simp at hx
  | cons x xs ih =>
      intro ind h
      rw [mxFixInputs]
      obtain ⟨y, hy, hy1, hy2⟩ := h
      rcases List.mem_cons.mp hy with hyx | hyx
      · subst hyx
        rw [mxFixInput, if_neg (by simp [hy1]), if_neg (by simp [hy2])]
        rfl
      · rw [mxFixInput]
        by_cases hs : x.symbolic = true
        · rw [if_pos hs, ih (ind + 1) ⟨y, hyx, hy1, hy2⟩]
          rfl
        · rw [if_neg hs]
          by_cases he : x.empty = true
          · rw [if_pos he, ih (ind + 1) ⟨y, hyx, hy1, hy2⟩]
            rfl
          · rw [if_neg he]
            rfl

/-- C10: in the MX constructor, a non-symbolic input that is an empty
matrix is silently replaced by a fresh symbolic primitive of the same
sparsity named "r"++index and construction proceeds (succeeding when the
inputs are otherwise acceptable); the non-symbolic-input error is raised
exactly by inputs that are non-symbolic and non-empty. -/
theorem mx_ctor_nonsymbolic_input (inputv : List MXIn)
    (outputv : List Unit) :
    ((∀ x ∈ inputv, x.symbolic = true ∨ x.empty = true) →
      ∃ l', mxFixInputs 0 inputv = .ok l'
        ∧ (∀ (k : Nat) (x : MXIn), inputv[k]? = some x → x.symbolic = false →
            l'[k]? = some ⟨Sum.inr k, true, x.empty, x.sp, "r" ++ toString k⟩)
        ∧ (hasDuplicates (l'.map MXIn.nodeId) = false →
            mkMXFunction inputv outputv = .ok (l', outputv)))
    ∧ ((∃ x ∈ inputv, x.symbolic = false ∧ x.empty = false) →
        mkMXFunction inputv outputv = .error .nonSymbolicInput) := by
  constructor
  · intro h
    obtain ⟨l', hl1, hl2⟩ := mxFixInputs_ok inputv 0 h
    refine ⟨l', hl1, ?_, ?_⟩
    · intro k x hk hx
      simpa using hl2 k x hk hx
    · intro hdup
      rw [mkMXFunction, hl1]
      show (if hasDuplicates (l'.map MXIn.nodeId) then _ else _) = _
      rw [if_neg (by simp [hdup])]
  · intro h
    rw [mkMXFunction, mxFixInputs_bad inputv 0 h]
    rfl

/-- Witness for C10: one empty non-symbolic input is replaced by the fresh
symbol "r0" of the same sparsity and construction succeeds; one non-empty
non-symbolic input raises the error. -/
theorem mx_ctor_nonsymbolic_input_witness :
    (∃ l', mxFixInputs 0 [⟨Sum.inl 3, false, true, 9, "c"⟩] = .ok l'
      ∧ (∀ (k : Nat) (x : MXIn),
          [(⟨Sum.inl 3, false, true, 9, "c"⟩ : MXIn)][k]? = some x →
          x.symbolic = false →
          l'[k]? = some ⟨Sum.inr k, true, x.empty, x.sp, "r" ++ toString k⟩)
      ∧ (hasDuplicates (l'.map MXIn.nodeId) = false →
          mkMXFunction [⟨Sum.inl 3, false, true, 9, "c"⟩] [()]
            = .ok (l', [()])))
    ∧ mkMXFunction [⟨Sum.inl 3, false, false, 9, "c"⟩] [()]
      = .error .nonSymbolicInput := by
  constructor
  · exact (mx_ctor_nonsymbolic_input [⟨Sum.inl 3, false, true, 9, "c"⟩]
      [()]).1 (by intro x hx; simp at hx; rw [hx]; right; rfl)
  · exact (mx_ctor_nonsymbolic_input [⟨Sum.inl 3, false, false, 9, "c"⟩]
      [()]).2 ⟨⟨Sum.inl 3, false, false, 9, "c"⟩, by simp, rfl, rfl⟩

theorem spillRes_marker_irrel (i j : Nat) :
    ∀ (res : List Int) (u : Int → Bool),
      (spillRes i res u).1 = (spillRes j res u).1 := by
  intro res
  induction res with
  | nil => intro u; rfl
  | cons r rest ih =>
      intro u
      rw [spillRes, spillRes]
      by_cases hr : 0 ≤ r
      · rw [if_pos hr, if_pos hr]
        by_cases hu : u r
        · rw [if_pos hu, if_pos hu]
          exact ih u
        · rw [if_neg hu, if_neg hu]
          exact ih _
      · rw [if_neg hr, if_neg hr]
        exact ih u

theorem spillRes_marker (i : Nat) :
    ∀ (res : List Int) (u : Int → Bool) (s : Int),
      (spillRes i res u).1 s = (u s || (decide (0 ≤ s) && decide (s ∈ res))) := by
  intro res
  induction res with
  | nil => intro u s; simp [spillRes]
  | cons r rest ih =>
      intro u s
      rw [spillRes]
      by_cases hr : 0 ≤ r
      · rw [if_pos hr]
        by_cases hu : u r
        · rw [if_pos hu]
          dsimp only
          rw [ih]
          by_cases hs : s = r
          · subst hs
            simp [hu, hr]
          · simp [List.mem_cons, hs]
        · rw [if_neg hu]
          rw [ih]
          by_cases hs : s = r
          · subst hs
            simp [hr]
          · simp [List.mem_cons, hs]
      · rw [if_neg hr]
        rw [ih]
        by_cases hs : s = r
        · subst hs
          simp [hr]
        · simp [List.mem_cons, hs]

theorem spillRes_entries (i : Nat) :
    ∀ (res : List Int) (u : Int → Bool),
      (res.filter (fun r => decide (0 ≤ r))).Nodup →
      ∀ (t : Nat) (s : Int), (t, s) ∈ (spillRes i res u).2 ↔
        (t = i ∧ 0 ≤ s ∧ s ∈ res ∧ u s = true) := by
  intro res
  induction res with
  | nil => intro u _ t s; simp [spillRes]
  | cons r rest ih =>
      intro u hnd t s
      rw [spillRes]
      by_cases hr : 0 ≤ r
      · have hnd' : (rest.filter (fun r => decide (0 ≤ r))).Nodup := by
          rw [List.filter_cons, if_pos (by simpa using hr)] at hnd
          exact hnd.of_cons
        have hrnotin : r ∉ rest.filter (fun r => decide (0 ≤ r)) := by
          rw [List.filter_cons, if_pos (by simpa using hr)] at hnd
          exact (List.nodup_cons.mp hnd).1
        rw [if_pos hr]
        by_cases hu : u r
        · rw [if_pos hu]
          dsimp only
          rw [List.mem_cons, ih u hnd' t s]
          constructor
          · rintro (h | ⟨h1, h2, h3, h4⟩)
            · obtain ⟨h1, h2⟩ := Prod.mk.injEq .. ▸ h
              injection h with h1 h2
              exact ⟨h1, h2 ▸ hr, h2 ▸ List.mem_cons_self r rest, h2 ▸ hu⟩
            · exact ⟨h1, h2, List.mem_cons_of_mem r h3, h4⟩
          · rintro ⟨h1, h2, h3, h4⟩
            rcases List.mem_cons.mp h3 with h3 | h3
            · subst h3
              exact Or.inl (by rw [h1])
            · exact Or.inr ⟨h1, h2, h3, h4⟩
        · rw [if_neg hu]
          rw [ih _ hnd' t s]
          constructor
          · rintro ⟨h1, h2, h3, h4⟩
            by_cases hs : s = r
            · subst hs
              exact absurd h3 (by
                intro hmem
                exact hrnotin (List.mem_filter.mpr ⟨hmem, by simpa using hr⟩))
            · simp only [hs, if_neg hs] at h4
              exact ⟨h1, h2, List.mem_cons_of_mem r h3, h4⟩
          · rintro ⟨h1, h2, h3, h4⟩
            by_cases hs : s = r
            · subst hs
              rw [h4] at hu
              exact absurd rfl hu
            · rcases List.mem_cons.mp h3 with h3 | h3
              · exact absurd h3 hs
              · exact ⟨h1, h2, h3, by simp [hs, h4]⟩
      · rw [if_neg hr]
        have hnd' : (rest.filter (fun r => decide (0 ≤ r))).Nodup := by
          rw [List.filter_cons, if_neg (by simpa using hr)] at hnd
          exact hnd
        rw [ih u hnd' t s]
        constructor
        · rintro ⟨h1, h2, h3, h4⟩
          exact ⟨h1, h2, List.mem_cons_of_mem r h3, h4⟩
        · rintro ⟨h1, h2, h3, h4⟩
          rcases List.mem_cons.mp h3 with h3 | h3
          · subst h3
            exact absurd h2 hr
          · exact ⟨h1, h2, h3, h4⟩

theorem inUseAfter_spec :
    ∀ (alg : List MAlgEl) (u : Int → Bool) (s : Int),
      inUseAfter alg u s = true ↔ (u s = true ∨ ∃ e ∈ alg, writesSlot e s) := by
  intro alg
  induction alg with
  | nil => intro u s; simp [inUseAfter]
  | cons e rest ih =>
      intro u s
      rw [inUseAfter]
      by_cases ho : e.op = MOp.output
      · rw [if_pos ho, ih]
        have hnw : ¬ writesSlot e s := fun h => h.1 ho
        simp [List.exists_mem_cons_iff, hnw]
      · rw [if_neg ho, ih]
        rw [spillRes_marker 0 e.res u s]
        have hw : writesSlot e s ↔ (0 ≤ s ∧ s ∈ e.res) := by
          unfold writesSlot
          simp [ho]
        simp only [List.exists_mem_cons_iff, hw, Bool.or_eq_true,
          decide_eq_true_eq, Bool.and_eq_true]
        tauto

theorem allocTapeGo_mem (dfltM : M) :
    ∀ (alg : List MAlgEl) (i0 : Nat) (u : Int → Bool),
      (∀ e ∈ alg, (e.res.filter (fun r => decide (0 ≤ r))).Nodup) →
      ∀ (t : Nat) (s : Int) (d : M),
        ((t, s), d) ∈ allocTapeGo dfltM alg i0 u ↔
          (d = dfltM ∧ ∃ k e, alg[k]? = some e ∧ t = i0 + k ∧ writesSlot e s ∧
            inUseAfter (alg.take k) u s = true) := by
  intro alg
  induction alg with
  | nil =>
      intro i0 u _ t s d
      simp [allocTapeGo]
  | cons e rest ih =>
      intro i0 u hnd t s d
      have hnd' : ∀ e' ∈ rest, (e'.res.filter (fun r => decide (0 ≤ r))).Nodup :=
        fun e' he' => hnd e' (List.mem_cons_of_mem e he')
      rw [allocTapeGo]
      by_cases ho : e.op = MOp.output
      · rw [if_pos ho]
        rw [ih (i0 + 1) u hnd' t s d]
        constructor
        · rintro ⟨hd, k, e', h1, h2, h3, h4⟩
          refine ⟨hd, k + 1, e', by simpa using h1, by omega, h3, ?_⟩
          rw [List.take_succ_cons, inUseAfter, if_pos ho]
          exact h4
        · rintro ⟨hd, k, e', h1, h2, h3, h4⟩
          match k, h1, h2, h4 with
          | 0, h1, h2, h4 =>
              have hee : e = e' := by simpa using h1
              subst hee
              exact absurd ho h3.1
          | Nat.succ k', h1, h2, h4 =>
              refine ⟨hd, k', e', by simpa using h1, by omega, h3, ?_⟩
              rw [List.take_succ_cons, inUseAfter, if_pos ho] at h4
              exact h4
      · rw [if_neg ho]
        dsimp only
        rw [List.mem_append]
        have hmap : (((t, s), d) ∈ (spillRes i0 e.res u).2.map
            (fun p => (p, dfltM))) ↔
            (d = dfltM ∧ (t, s) ∈ (spillRes i0 e.res u).2) := by
          rw [List.mem_map]
          constructor
          · rintro ⟨p, hp1, hp2⟩
            injection hp2 with hp3 hp4
            exact ⟨hp4.symm, hp3 ▸ hp1⟩
          · rintro ⟨hd, hmem⟩
            exact ⟨(t, s), hmem, by rw [hd]⟩
        rw [hmap, ih (i0 + 1) _ hnd' t s d,
          spillRes_entries i0 e.res u (hnd e (List.mem_cons_self e rest)) t s]
        constructor
        · rintro (⟨hd, h1, h2, h3, h4⟩ | ⟨hd, k, e', h1, h2, h3, h4⟩)
          · exact ⟨hd, 0, e, by simp, by omega, ⟨ho, h2, h3⟩, by simpa using h4⟩
          · refine ⟨hd, k + 1, e', by simpa using h1, by omega, h3, ?_⟩
            rw [List.take_succ_cons, inUseAfter, if_neg ho]
            rw [show (spillRes 0 e.res u).1 = (spillRes i0 e.res u).1 from
              spillRes_marker_irrel 0 i0 e.res u]
            exact h4
        · rintro ⟨hd, k, e', h1, h2, h3, h4⟩
          match k, h1, h2, h4 with
          | 0, h1, h2, h4 =>
              have hee : e = e' := by simpa using h1
              subst hee
              exact Or.inl ⟨hd, by omega, h3.2.1, h3.2.2, by simpa using h4⟩
          | Nat.succ k', h1, h2, h4 =>
              right
              refine ⟨hd, k', e', by simpa using h1, by omega, h3, ?_⟩
              rw [List.take_succ_cons, inUseAfter, if_neg ho] at h4
              rw [show (spillRes 0 e.res u).1 = (spillRes i0 e.res u).1 from
                spillRes_marker_irrel 0 i0 e.res u] at h4
              exact h4

/-- Membership in the spill tape, characterized: with distinct result
slots per record (as produced by the allocator), the tape has an entry
`(i, s)` exactly when record `i` writes slot `s` and some earlier record
already wrote `s` (the slot was marked in use); the payload is the
default-constructed expression. -/
theorem allocTape_mem (dfltM : M) (alg : List MAlgEl)
    (hnd : ∀ e ∈ alg, (e.res.filter (fun r => decide (0 ≤ r))).Nodup)
    (i : Nat) (s : Int) (d : M) :
    ((i, s), d) ∈ allocTape dfltM alg ↔
      (d = dfltM ∧ (∃ e, alg[i]? = some e ∧ writesSlot e s) ∧
        ∃ j, j < i ∧ ∃ e', alg[j]? = some e' ∧ writesSlot e' s) := by
  rw [allocTape, allocTapeGo_mem dfltM alg 0 _ hnd i s d]
  constructor
  · rintro ⟨hd, k, e, h1, h2, h3, h4⟩
    have hki : k = i := by omega
    subst hki
    rcases (inUseAfter_spec (alg.take k) (fun _ => false) s).mp h4 with hc | hc
    · exact absurd hc (by simp)
    obtain ⟨e', he1, he2⟩ := hc
    obtain ⟨j, hj⟩ := List.mem_iff_getElem?.mp he1
    have hlen := (List.getElem?_eq_some.mp hj).1
    rw [List.length_take] at hlen
    have hjk : j < k := by omega
    rw [List.getElem?_take, if_pos hjk] at hj
    exact ⟨hd, ⟨e, h1, h3⟩, j, hjk, e', hj, he2⟩
  · rintro ⟨hd, ⟨e, h1, h3⟩, j, hj, e', h5, h6⟩
    refine ⟨hd, i, e, h1, by omega, h3, ?_⟩
    apply (inUseAfter_spec (alg.take i) (fun _ => false) s).mpr
    refine Or.inr ⟨e', ?_, h6⟩
    apply List.mem_iff_getElem?.mpr
    refine ⟨j, ?_⟩
    rw [List.getElem?_take, if_pos hj]
    exact h5

theorem spillRes_mem_fst (i : Nat) :
    ∀ (res : List Int) (u : Int → Bool) (t : Nat) (s : Int),
      (t, s) ∈ (spillRes i res u).2 → t = i := by
  intro res
  induction res with
  | nil => intro u t s h; simp [spillRes] at h
  | cons r rest ih =>
      intro u t s h
      rw [spillRes] at h
      by_cases hr : 0 ≤ r
      · rw [if_pos hr] at h
        by_cases hu : u r
        · rw [if_pos hu] at h
          rcases List.mem_cons.mp h with h | h
          · injection h with h1 h2
          · exact ih u t s h
        · rw [if_neg hu] at h
          exact ih _ t s h
      · rw [if_neg hr] at h
        exact ih u t s h

theorem allocTapeGo_fst_ge (dfltM : M) :
    ∀ (alg : List MAlgEl) (i0 : Nat) (u : Int → Bool)
      (p : (Nat × Int) × M), p ∈ allocTapeGo dfltM alg i0 u → i0 ≤ p.1.1 := by
  intro alg
  induction alg with
  | nil => intro i0 u p h; simp [allocTapeGo] at h
  | cons e rest ih =>
      intro i0 u p h
      rw [allocTapeGo] at h
      by_cases ho : e.op = MOp.output
      · rw [if_pos ho] at h
        have := ih (i0 + 1) u p h
        omega
      · rw [if_neg ho] at h
        dsimp only at h
        rcases List.mem_append.mp h with h | h
        · obtain ⟨q, hq1, hq2⟩ := List.mem_map.mp h
          have := spillRes_mem_fst i0 e.res u q.1 q.2 hq1
          rw [← hq2]
          show i0 ≤ q.1
          omega
        · have := ih (i0 + 1) _ p h
          omega

theorem fwdStepCore_tape (ops : MXOps M) (ctx : MXSymCtx M) (og : Bool)
    (nfdir : Nat) (arg : List M) (fseed : List (List M)) (st : FwdState M)
    (i : Nat) (e : MAlgEl) :
    (fwdStepCore ops ctx og nfdir arg fseed st i e).tape = st.tape := by
  obtain ⟨op, ea, er⟩ := e
  cases op <;> rfl

theorem fwdStepCore_tt (ops : MXOps M) (ctx : MXSymCtx M) (og : Bool)
    (nfdir : Nat) (arg : List M) (fseed : List (List M)) (st : FwdState M)
    (i : Nat) (e : MAlgEl) :
    (fwdStepCore ops ctx og nfdir arg fseed st i e).tt = st.tt := by
  obtain ⟨op, ea, er⟩ := e
  cases op <;> rfl

theorem fwdStep_tape (ops : MXOps M) (ctx : MXSymCtx M) (og : Bool)
    (nfdir nadir : Nat) (arg : List M) (fseed : List (List M))
    (st : FwdState M) (i : Nat) (e : MAlgEl) :
    (fwdStep ops ctx og nfdir nadir arg fseed st i e).tape
      = (if 0 < nadir ∧ e.op ≠ MOp.output then
          spillScan ops.dflt st.swork i e.res st.tape st.tt
        else (st.tape, st.tt)).1 := by
  rw [fwdStep, fwdStepCore_tape]

theorem fwdStep_tt (ops : MXOps M) (ctx : MXSymCtx M) (og : Bool)
    (nfdir nadir : Nat) (arg : List M) (fseed : List (List M))
    (st : FwdState M) (i : Nat) (e : MAlgEl) :
    (fwdStep ops ctx og nfdir nadir arg fseed st i e).tt
      = (if 0 < nadir ∧ e.op ≠ MOp.output then
          spillScan ops.dflt st.swork i e.res st.tape st.tt
        else (st.tape, st.tt)).2 := by
  rw [fwdStep, fwdStepCore_tt]

theorem fwdGo_res_og (ops : MXOps M) (ctx : MXSymCtx M) (nfdir nadir : Nat)
    (arg : List M) (fseed : List (List M)) :
    ∀ (l : List MAlgEl) (k : Nat) (st : FwdState M),
      (fwdGo ops ctx true nfdir nadir arg fseed st k l).res = st.res := by
  intro l
  induction l with
  | nil => intro k st; rfl
  | cons e rest ih =>
      intro k st
      rw [fwdGo, ih]
      obtain ⟨op, ea, er⟩ := e
      cases op <;> rfl

theorem fwdGo_fsens_nf0 (ops : MXOps M) (ctx : MXSymCtx M) (og : Bool)
    (nadir : Nat) (arg : List M) (fseed : List (List M)) :
    ∀ (l : List MAlgEl) (k : Nat) (st : FwdState M),
      (fwdGo ops ctx og 0 nadir arg fseed st k l).fsens = st.fsens := by
  intro l
  induction l with
  | nil => intro k st; rfl
  | cons e rest ih =>
      intro k st
      rw [fwdGo, ih]
      obtain ⟨op, ea, er⟩ := e
      cases op <;> rfl

theorem sxVal_res1_og (ops : SXSymOps E) (ctx : SXSymCtx E) (taping : Bool)
    (arg : List (List E)) :
    ∀ (l : List (SAlgEl E)) (st : SXSymState E),
      (l.foldl (sxSymValStep ops ctx true taping arg) st).res1 = st.res1 := by
  intro l
  induction l with
  | nil => intro st; rfl
  | cons e rest ih =>
      intro st
      rw [List.foldl_cons, ih]
      obtain ⟨op, i0, i1, i2, d⟩ := e
      cases op <;> rfl

theorem range_map_getD {α : Type} (l : List α) (d : α) :
    (List.range l.length).map (fun i => l.getD i d) = l := by
  apply List.ext_getElem (by simp)
  intro i h1 h2
  simp [List.getD_eq_getElem?_getD, List.getElem?_eq_getElem h2]

theorem copyInto_of_length_eq {α : Type} (dst src : List α)
    (h : src.length = dst.length) : copyInto dst src = src := by
  rw [copyInto, List.drop_eq_nil_of_le (by omega), List.append_nil]

theorem spillScan_spec (dfltM : M) (w : List M) (i : Nat) :
    ∀ (res : List Int) (u : Int → Bool) (pre post : List ((Nat × Int) × M)),
      (res.filter (fun r => decide (0 ≤ r))).Nodup →
      (∀ p ∈ post, p.1.1 ≠ i) →
      spillScan dfltM w i res
          (pre ++ (spillRes i res u).2.map (fun p => (p, dfltM)) ++ post)
          pre.length
        = (pre ++ (spillRes i res u).2.map
            (fun p => (p, w.getD p.2.toNat dfltM)) ++ post,
           pre.length + (spillRes i res u).2.length) := by
  intro res
  induction res with
  | nil => intro u pre post _ _; simp [spillScan, spillRes]
  | cons c rest ih =>
      intro u pre post hnd hpost
      rw [spillRes, spillScan]
      by_cases hc : 0 ≤ c
      · have hndr : (rest.filter (fun r => decide (0 ≤ r))).Nodup := by
          rw [List.filter_cons, if_pos (by simpa using hc)] at hnd
          exact hnd.of_cons
        have hcnotin : c ∉ rest.filter (fun r => decide (0 ≤ r)) := by
          rw [List.filter_cons, if_pos (by simpa using hc)] at hnd
          exact (List.nodup_cons.mp hnd).1
        rw [if_pos hc]
        by_cases hu : u c
        · rw [if_pos hu]
          dsimp only
          have hhead :
              (pre ++ (((i, c) :: (spillRes i rest u).2).map
                  (fun p => (p, dfltM)) ++ post))[pre.length]?
                = some (((i, c), dfltM)) := by
            rw [List.getElem?_append_right (Nat.le_refl _)]
            simp
          rw [← List.append_assoc] at hhead
          rw [if_pos ⟨hc, by rw [hhead]; rfl⟩]
          have hset :
              (pre ++ ((i, c) :: (spillRes i rest u).2).map (fun p => (p, dfltM))
                ++ post).set pre.length ((i, c), w.getD c.toNat dfltM)
              = (pre ++ [((i, c), w.getD c.toNat dfltM)])
                ++ (spillRes i rest u).2.map (fun p => (p, dfltM)) ++ post := by
            rw [List.map_cons]
            rw [List.append_assoc pre, List.append_assoc pre]
            rw [List.set_append_right _ _ (Nat.le_refl _)]
            simp
          rw [hset]
          have hlen : (pre ++ [((i, c), w.getD c.toNat dfltM)]).length
              = pre.length + 1 := by simp
          rw [← hlen, ih u (pre ++ [((i, c), w.getD c.toNat dfltM)]) post hndr hpost]
          rw [hlen]
          rw [Prod.mk.injEq]
          constructor
          · rw [List.map_cons]
            simp [List.append_assoc]
          · simp
            omega
        · rw [if_neg hu]
          have hnomatch : ¬ (0 ≤ c ∧
              ((pre ++ (spillRes i rest fun j => if j = c then true else u j).2.map
                  (fun p => (p, dfltM)) ++ post)[pre.length]?).map Prod.fst
                = some (i, c)) := by
            rintro ⟨-, hm⟩
            rw [List.append_assoc] at hm
            rw [List.getElem?_append_right (Nat.le_refl _)] at hm
            simp only [Nat.sub_self] at hm
            rcases hq : ((spillRes i rest fun j => if j = c then true else u j).2.map
                (fun p => (p, dfltM)) ++ post)[0]? with _ | q
            · rw [hq] at hm; simp at hm
            · rw [hq] at hm
              rw [show (some q).map Prod.fst = some q.1 from rfl] at hm
              have hqmem := List.mem_iff_getElem?.mpr ⟨0, hq⟩
              injection hm with hm
              rcases List.mem_append.mp hqmem with hq1 | hq1
              · obtain ⟨p, hp1, hp2⟩ := List.mem_map.mp hq1
                have hpc : p = (i, c) := by rw [← hm, ← hp2]
                rw [hpc] at hp1
                have := (spillRes_entries i rest _ hndr i c).mp hp1
                exact hcnotin (List.mem_filter.mpr ⟨this.2.2.1, by simpa using hc⟩)
              · exact (hpost q hq1) (by rw [hm])
          rw [if_neg hnomatch]
          exact ih _ pre post hndr hpost
      · rw [if_neg hc]
        rw [if_neg (fun hh => hc hh.1)]
        have hndr : (rest.filter (fun r => decide (0 ≤ r))).Nodup := by
          rw [List.filter_cons, if_neg (by simpa using hc)] at hnd
          exact hnd
        exact ih u pre post hndr hpost

theorem fwdGo_capture (ops : MXOps M) (ctx : MXSymCtx M) (og : Bool)
    (nfdir nadir : Nat) (arg : List M) (fseed : List (List M))
    (hna : 0 < nadir) :
    ∀ (suffix : List MAlgEl) (k : Nat) (u : Int → Bool) (st : FwdState M)
      (C : List ((Nat × Int) × M)),
      (∀ e ∈ suffix, (e.res.filter (fun r => decide (0 ≤ r))).Nodup) →
      st.tt = C.length →
      st.tape = C ++ allocTapeGo ops.dflt suffix k u →
      (fwdGo ops ctx og nfdir nadir arg fseed st k suffix).tt
          = C.length + (allocTapeGo ops.dflt suffix k u).length ∧
      ∃ D, (fwdGo ops ctx og nfdir nadir arg fseed st k suffix).tape = C ++ D ∧
        D.length = (allocTapeGo ops.dflt suffix k u).length ∧
        ∀ (t i : Nat) (s : Int) (d : M), D[t]? = some ((i, s), d) →
          (allocTapeGo ops.dflt suffix k u)[t]?.map Prod.fst = some (i, s) ∧
          d = (fwdGo ops ctx og nfdir nadir arg fseed st k
                (suffix.take (i - k))).swork.getD s.toNat ops.dflt := by
  intro suffix
  induction suffix with
  | nil =>
      intro k u st C _ htt htape
      simp only [fwdGo, allocTapeGo] at htape ⊢
      refine ⟨by simpa using htt, [], by simpa using htape, rfl, ?_⟩
      intro t i s d h
      simp at h
  | cons e rest ih =>
      intro k u st C hnd htt htape
      have hnd' : ∀ e' ∈ rest, (e'.res.filter (fun r => decide (0 ≤ r))).Nodup :=
        fun e' he' => hnd e' (List.mem_cons_of_mem e he')
      rw [fwdGo]
      by_cases ho : e.op = MOp.output
      · have htape' : (fwdStep ops ctx og nfdir nadir arg fseed st k e).tape
            = st.tape := by
          rw [fwdStep_tape, if_neg (fun hcon => hcon.2 ho)]
        have htt' : (fwdStep ops ctx og nfdir nadir arg fseed st k e).tt
            = st.tt := by
          rw [fwdStep_tt, if_neg (fun hcon => hcon.2 ho)]
        rw [allocTapeGo, if_pos ho] at htape ⊢
        obtain ⟨h1, D, h2, h3, h4⟩ :=
          ih (k + 1) u (fwdStep ops ctx og nfdir nadir arg fseed st k e) C hnd'
            (htt'.trans htt) (htape'.trans htape)
        refine ⟨h1, D, h2, h3, ?_⟩
        intro t i s d hD
        obtain ⟨h5, h6⟩ := h4 t i s d hD
        refine ⟨h5, ?_⟩
        have hik : k + 1 ≤ i := by
          rcases hq : (allocTapeGo ops.dflt rest (k + 1) u)[t]? with _ | q
          · rw [hq] at h5; simp at h5
          · have hqmem := List.mem_iff_getElem?.mpr ⟨t, hq⟩
            have hge := allocTapeGo_fst_ge ops.dflt rest (k + 1) u q hqmem
            rw [hq, show (some q).map Prod.fst = some q.1 from rfl] at h5
            injection h5 with h5
            rw [h5] at hge
            simpa using hge
        have htake : (e :: rest).take (i - k) = e :: rest.take (i - (k + 1)) := by
          have hik2 : i - k = (i - (k + 1)) + 1 := by omega
          rw [hik2, List.take_succ_cons]
        rw [htake, fwdGo]
        exact h6
      · rw [allocTapeGo, if_neg ho] at htape ⊢
        dsimp only at htape ⊢
        have hpost : ∀ p ∈ allocTapeGo ops.dflt rest (k + 1)
            (spillRes k e.res u).1, p.1.1 ≠ k := by
          intro p hp
          have := allocTapeGo_fst_ge ops.dflt rest (k + 1) _ p hp
          omega
        have hscan := spillScan_spec ops.dflt st.swork k e.res u C
          (allocTapeGo ops.dflt rest (k + 1) (spillRes k e.res u).1)
          (hnd e (List.mem_cons_self e rest)) hpost
        have htape' : (fwdStep ops ctx og nfdir nadir arg fseed st k e).tape
            = (C ++ (spillRes k e.res u).2.map
                (fun p => (p, st.swork.getD p.2.toNat ops.dflt)))
              ++ allocTapeGo ops.dflt rest (k + 1) (spillRes k e.res u).1 := by
          rw [fwdStep_tape, if_pos ⟨hna, ho⟩, htt, htape, ← List.append_assoc,
            hscan, List.append_assoc, ← List.append_assoc]
        have htt2 : (fwdStep ops ctx og nfdir nadir arg fseed st k e).tt
            = (C ++ (spillRes k e.res u).2.map
                (fun p => (p, st.swork.getD p.2.toNat ops.dflt))).length := by
          rw [fwdStep_tt, if_pos ⟨hna, ho⟩, htt, htape, ← List.append_assoc,
            hscan]
          simp
        obtain ⟨h1, D', h2, h3, h4⟩ :=
          ih (k + 1) (spillRes k e.res u).1
            (fwdStep ops ctx og nfdir nadir arg fseed st k e)
            (C ++ (spillRes k e.res u).2.map
              (fun p => (p, st.swork.getD p.2.toNat ops.dflt)))
            hnd' htt2 htape'
        refine ⟨?_, (spillRes k e.res u).2.map
            (fun p => (p, st.swork.getD p.2.toNat ops.dflt)) ++ D', ?_, ?_, ?_⟩
        · rw [h1]
          simp
          omega
        · rw [h2, List.append_assoc]
        · simp [h3]
        · intro t i s d hD
          rcases Nat.lt_or_ge t ((spillRes k e.res u).2.map
              (fun p => (p, st.swork.getD p.2.toNat ops.dflt))).length with hlt | hge
          · rw [List.getElem?_append_left hlt] at hD
            rw [List.getElem?_map] at hD
            rcases hq : (spillRes k e.res u).2[t]? with _ | p
            · rw [hq] at hD; simp at hD
            · rw [hq] at hD
              rw [show ((some p).map
                  (fun p => (p, st.swork.getD p.2.toNat ops.dflt)))
                  = some (p, st.swork.getD p.2.toNat ops.dflt) from rfl] at hD
              injection hD with hD
              have hp1 : p = (i, s) := congrArg Prod.fst hD
              have hd : d = st.swork.getD p.2.toNat ops.dflt :=
                (congrArg Prod.snd hD).symm
              have hpmem := List.mem_iff_getElem?.mpr ⟨t, hq⟩
              have hik : p.1 = k := spillRes_mem_fst k e.res u p.1 p.2
                (by rw [show (p.1, p.2) = p from rfl]; exact hpmem)
              have hik2 : i = k := by rw [hp1] at hik; simpa using hik
              constructor
              · have hlt2 : t < ((spillRes k e.res u).2.map
                    (fun p => (p, ops.dflt))).length := by
                  simpa using (by simpa using hlt : t < (spillRes k e.res u).2.length)
                rw [List.getElem?_append_left hlt2, List.getElem?_map, hq]
                rw [show ((some p).map (fun p => (p, ops.dflt))).map Prod.fst
                    = some p from rfl]
                rw [hp1]
              · rw [hik2, Nat.sub_self, List.take_zero]
                rw [show fwdGo ops ctx og nfdir nadir arg fseed st k [] = st
                  from rfl]
                rw [hd, hp1]
          · rw [List.getElem?_append_right hge] at hD
            obtain ⟨h5, h6⟩ := h4 _ i s d hD
            have hik : k + 1 ≤ i := by
              rcases hq : (allocTapeGo ops.dflt rest (k + 1)
                  (spillRes k e.res u).1)[t - ((spillRes k e.res u).2.map
                    (fun p => (p, st.swork.getD p.2.toNat ops.dflt))).length]?
                  with _ | q
              · rw [hq] at h5; simp at h5
              · have hqmem := List.mem_iff_getElem?.mpr ⟨_, hq⟩
                have hge2 := allocTapeGo_fst_ge ops.dflt rest (k + 1) _ q hqmem
                rw [hq, show (some q).map Prod.fst = some q.1 from rfl] at h5
                injection h5 with h5
                rw [h5] at hge2
                simpa using hge2
            constructor
            · have hge2 : ((spillRes k e.res u).2.map
                  (fun p => (p, ops.dflt))).length ≤ t := by
                simpa using (by simpa using hge : (spillRes k e.res u).2.length ≤ t)
              rw [List.getElem?_append_right hge2]
              have hlen : ((spillRes k e.res u).2.map
                  (fun p => (p, ops.dflt))).length
                  = ((spillRes k e.res u).2.map
                    (fun p => (p, st.swork.getD p.2.toNat ops.dflt))).length := by
                simp
              rw [hlen]
              exact h5
            · have htake : (e :: rest).take (i - k)
                  = e :: rest.take (i - (k + 1)) := by
                have hik2 : i - k = (i - (k + 1)) + 1 := by omega
                rw [hik2, List.take_succ_cons]
              rw [htake, fwdGo]
              exact h6

/-- C2: the spill tape of a compiled MX function has one entry
`(algorithm_index, work_slot)` for every overwrite of a slot that some
earlier record already wrote — whether or not the overwritten value is
consulted later — and no entry for any other record; during the forward
symbolic sweep (run whenever an adjoint sweep will follow) the whole tape
is consumed in order and each entry captures the slot's symbolic content
just before its record executes.  (Amended from the claim's "slot whose
prior value is still needed on the reverse sweep": the in-use marking of
`allocTape` tracks writes only, see the counterexample.) -/
theorem mx_spill_tape_discipline (ops : MXOps M) (ctx : MXSymCtx M)
    (og : Bool) (nfdir nadir : Nat) (arg : List M)
    (fseed fsens0 : List (List M))
    (hnd : ∀ e ∈ ctx.alg, (e.res.filter (fun r => decide (0 ≤ r))).Nodup)
    (hna : 0 < nadir) :
    SpillTapeSpec ops ctx og nfdir nadir arg fseed fsens0 := by
  obtain ⟨h1, D, h2, h3, h4⟩ :=
    fwdGo_capture ops ctx og nfdir nadir arg fseed hna ctx.alg 0
      (fun _ => false) (fwdInit ops ctx og nfdir fsens0) [] hnd rfl
      (by rw [List.nil_append]; rfl)
  rw [List.nil_append] at h2
  unfold SpillTapeSpec
  refine ⟨fun i s d => allocTape_mem ops.dflt ctx.alg hnd i s d, ?_, ?_, ?_⟩
  · rw [show fwdPass ops ctx og nfdir nadir arg fseed fsens0
        = fwdGo ops ctx og nfdir nadir arg fseed
            (fwdInit ops ctx og nfdir fsens0) 0 ctx.alg from rfl, h2, h3]
    rfl
  · rw [show fwdPass ops ctx og nfdir nadir arg fseed fsens0
        = fwdGo ops ctx og nfdir nadir arg fseed
            (fwdInit ops ctx og nfdir fsens0) 0 ctx.alg from rfl, h1]
    simp [allocTape]
  · intro t i s d h
    rw [show fwdPass ops ctx og nfdir nadir arg fseed fsens0
        = fwdGo ops ctx og nfdir nadir arg fseed
            (fwdInit ops ctx og nfdir fsens0) 0 ctx.alg from rfl, h2] at h
    obtain ⟨h5, h6⟩ := h4 t i s d h
    rw [Nat.sub_zero] at h6
    exact ⟨h5, h6⟩

/-- C2, the counterexample to the "still needed" reading: in
`mxTapeUnreadAlg` the spill tape has the entry `((2, 0), MX())` for the
parameter's overwrite of slot 0, although no record of the algorithm
consults the forward value of slot 0 on the reverse sweep (the slot is
read only by output sentinels). -/
theorem mx_spill_tape_overwrite_unneeded :
    ((2, 0), (0 : Int)) ∈ allocTape (0 : Int) mxTapeUnreadAlg ∧
      ∀ e ∈ mxTapeUnreadAlg, ¬ consultsSworkOnReverse e 0 := by decide

/-- C2 witness: a concrete two-record function with one spill, with the
hypotheses of the theorem discharged by computation. -/
theorem mx_spill_tape_discipline_witness :
    ((∀ e ∈ spillCtx.alg, (e.res.filter (fun r => decide (0 ≤ r))).Nodup) ∧
      0 < 1) ∧
    SpillTapeSpec intMXOps spillCtx false 0 1 [] [] [] :=
  ⟨⟨by decide, by decide⟩,
   mx_spill_tape_discipline intMXOps spillCtx false 0 1 [] [] []
     (by decide) (by decide)⟩

/-- C3: for an `OP_CALL` record the kernel receives no derivative
arguments exactly when both purged vectors are empty, the purged vectors
when the purge-seeds flag is on and the unpurged ones otherwise — in the
forward and the adjoint sweep alike.  The forward branch's source
condition reads the purged sensitivities twice
(`fsens_purged.size()==0 && fsens_purged.size()==0`), but purging keeps
seed and sensitivity directions in lockstep, so the two purged vectors
are empty simultaneously and the dispatch agrees with the adjoint one. -/
theorem call_purge_dispatch (ops : MXOps M) (flag : Bool)
    (seedP sensP : List (List (Option M))) :
    (fwdCallMode flag (purgeSeedsModel ops seedP sensP).2.1
        (purgeSeedsModel ops seedP sensP).2.2
      = if (purgeSeedsModel ops seedP sensP).2.1.length = 0
            ∧ (purgeSeedsModel ops seedP sensP).2.2.length = 0 then
          CallDerMode.noDer
        else if flag then CallDerMode.purged else CallDerMode.unpurged) ∧
    (adjCallMode flag (purgeSeedsModel ops seedP sensP).2.1
        (purgeSeedsModel ops seedP sensP).2.2
      = if (purgeSeedsModel ops seedP sensP).2.1.length = 0
            ∧ (purgeSeedsModel ops seedP sensP).2.2.length = 0 then
          CallDerMode.noDer
        else if flag then CallDerMode.purged else CallDerMode.unpurged) := by
  unfold purgeSeedsModel fwdCallMode adjCallMode
  cases hd : (List.range seedP.length).filter
      (fun d => ! dirAllEmpty ops (seedP.getD d [])) with
  | nil => simp
  | cons a l => simp

/-- C4: in both layers, when every supplied input is bounded-depth-equal
(depth 2) to the declared input, the returned outputs are the stored
declared output expressions verbatim, and the requested forward and
adjoint derivative direction counts are unaffected by the fast path (the
derivative sweeps still run). -/
theorem output_given_verbatim :
    (∀ (M : Type) (ops : MXOps M) (ctx : MXSymCtx M) (arg1 : List M)
        (fseed aseed : List (List M)),
        mxOutputGiven ops ctx.inputv arg1 = true →
        (evalMXModel ops ctx arg1 fseed aseed).res = ctx.outputv ∧
        (evalMXModel ops ctx arg1 fseed aseed).nfdirRun
            = (if mxSkipDirs ops fseed then 0 else fseed.length) ∧
        (evalMXModel ops ctx arg1 fseed aseed).nadirRun
            = (if mxSkipDirs ops aseed then 0 else aseed.length)) ∧
    (∀ (E : Type) (ops : SXSymOps E) (ctx : SXSymCtx E)
        (arg1 res1In : List (List E))
        (fseed fsensIn aseed asensIn : List (List (List E))),
        sxOutputGiven ops ctx.inputv arg1 = true →
        res1In.length = ctx.outputv.length →
        (∀ i, i < res1In.length →
          (res1In.getD i []).length = (ctx.outputv.getD i []).length) →
        (evalSXsparseModel ops ctx arg1 res1In fseed fsensIn aseed
            asensIn).res1 = ctx.outputv ∧
        (evalSXsparseModel ops ctx arg1 res1In fseed fsensIn aseed
            asensIn).nfdirRun = fsensIn.length ∧
        (evalSXsparseModel ops ctx arg1 res1In fseed fsensIn aseed
            asensIn).nadirRun = aseed.length) := by
  constructor
  · intro M ops ctx arg1 fseed aseed hog
    have hres : ∀ (nf na : Nat) (arg : List M) (f0 : List (List M)),
        (fwdPass ops ctx true nf na arg fseed f0).res = ctx.outputv := by
      intro nf na arg f0
      rw [show fwdPass ops ctx true nf na arg fseed f0
          = fwdGo ops ctx true nf na arg fseed (fwdInit ops ctx true nf f0)
              0 ctx.alg from rfl, fwdGo_res_og]
      simp [fwdInit]
    rcases Bool.eq_false_or_eq_true (mxSkipDirs ops fseed) with hf | hf <;>
      rcases Bool.eq_false_or_eq_true (mxSkipDirs ops aseed) with ha | ha <;>
      simp only [evalMXModel, hog, hf, ha, if_true, true_and,
        Bool.false_eq_true, if_false] <;>
      split <;>
      refine ⟨by simp [hres], by simp_all, by simp_all⟩
  · intro E ops ctx arg1 res1In fseed fsensIn aseed asensIn hog hlen hrow
    have hcopy : (List.range res1In.length).map (fun i =>
        copyInto (res1In.getD i []) (ctx.outputv.getD i []))
        = ctx.outputv := by
      have hcong : ∀ i ∈ List.range res1In.length,
          copyInto (res1In.getD i []) (ctx.outputv.getD i [])
            = ctx.outputv.getD i [] := by
        intro i hi
        exact copyInto_of_length_eq _ _
          ((hrow i (List.mem_range.mp hi)).symm)
      rw [List.map_congr_left hcong, hlen, range_map_getD]
    simp only [evalSXsparseModel, hog, hcopy]
    split
    · rename_i h
      rw [not_or] at h
      refine ⟨?_, ?_, ?_⟩
      · rw [sxVal_res1_og]; simp
      · show 0 = fsensIn.length
        omega
      · show 0 = aseed.length
        omega
    · refine ⟨?_, rfl, rfl⟩
      rw [sxVal_res1_og]; simp

/-- C4 witness: both halves applied to the concrete identity functions,
with every hypothesis discharged by computation. -/
theorem output_given_verbatim_witness :
    (mxOutputGiven intMXOps identCtx.inputv [(42 : Int)] = true ∧
      sxOutputGiven intSXOps identSXCtx.inputv [[(42 : Int)]] = true ∧
      ([[(0 : Int)]] : List (List Int)).length = identSXCtx.outputv.length ∧
      (∀ i, i < ([[(0 : Int)]] : List (List Int)).length →
        (([[(0 : Int)]] : List (List Int)).getD i []).length
          = (identSXCtx.outputv.getD i []).length)) ∧
    ((evalMXModel intMXOps identCtx [(42 : Int)] [] []).res
        = identCtx.outputv ∧
      (evalMXModel intMXOps identCtx [(42 : Int)] [] []).nfdirRun
        = (if mxSkipDirs intMXOps ([] : List (List Int)) then 0
           else ([] : List (List Int)).length) ∧
      (evalMXModel intMXOps identCtx [(42 : Int)] [] []).nadirRun
        = (if mxSkipDirs intMXOps ([] : List (List Int)) then 0
           else ([] : List (List Int)).length)) ∧
    ((evalSXsparseModel intSXOps identSXCtx [[(42 : Int)]] [[0]]
        [] [] [] []).res1 = identSXCtx.outputv ∧
      (evalSXsparseModel intSXOps identSXCtx [[(42 : Int)]] [[0]]
        [] [] [] []).nfdirRun = ([] : List (List (List Int))).length ∧
      (evalSXsparseModel intSXOps identSXCtx [[(42 : Int)]] [[0]]
        [] [] [] []).nadirRun = ([] : List (List (List Int))).length) :=
  ⟨⟨by decide, by decide, by decide, by decide⟩,
   output_given_verbatim.1 Int intMXOps identCtx [(42 : Int)] [] []
     (by decide),
   output_given_verbatim.2 Int intSXOps identSXCtx [[(42 : Int)]] [[0]]
     [] [] [] [] (by decide) (by decide) (by decide)⟩

/-- C5 (amended): the empty-seed skip of `evalMX` is global, not
per-direction.  When every forward direction's seeds are all structurally
empty, the forward derivative sweep is skipped and every direction's
forward sensitivities are the structural zeros of the declared output
shapes; symmetrically for the adjoint directions with the declared input
shapes.  A single all-empty direction among non-empty ones is not skipped
(see the counterexample). -/
theorem mx_empty_seed_skip_global (ops : MXOps M) (ctx : MXSymCtx M)
    (arg1 : List M) (fseed aseed : List (List M)) :
    (mxSkipDirs ops fseed = true →
      (evalMXModel ops ctx arg1 fseed aseed).nfdirRun = 0 ∧
      (evalMXModel ops ctx arg1 fseed aseed).fsens
        = (List.range fseed.length).map (fun _ =>
            (List.range ctx.outputv.length).map (fun i =>
              ops.sparseZero (ctx.outShape i)))) ∧
    (mxSkipDirs ops aseed = true →
      (evalMXModel ops ctx arg1 fseed aseed).nadirRun = 0 ∧
      (evalMXModel ops ctx arg1 fseed aseed).asens
        = (List.range aseed.length).map (fun _ =>
            (List.range ctx.inputv.length).map (fun i =>
              ops.sparseZero (ctx.inShape i)))) := by
  constructor
  · intro hf
    have hfs : ∀ (og : Bool) (na : Nat) (arg : List M) (f0 : List (List M)),
        (fwdPass ops ctx og 0 na arg fseed f0).fsens = f0 := by
      intro og na arg f0
      rw [show fwdPass ops ctx og 0 na arg fseed f0
          = fwdGo ops ctx og 0 na arg fseed (fwdInit ops ctx og 0 f0)
              0 ctx.alg from rfl, fwdGo_fsens_nf0]
      rfl
    simp [evalMXModel, hf, hfs, apply_ite EvalMXOut.nfdirRun,
      apply_ite EvalMXOut.fsens]
  · intro ha
    simp [evalMXModel, ha, apply_ite EvalMXOut.nadirRun,
      apply_ite EvalMXOut.asens]

/-- C5, the counterexample to the per-direction reading: with one
all-empty and one non-empty forward direction nothing is skipped — both
directions run (`nfdirRun = 2`) and the empty direction's sensitivity is
its seed's projection onto the input sparsity (here `0 + 5 = 5`), not the
structural zero of the declared output shape. -/
theorem mx_empty_direction_not_skipped :
    dirAllEmpty intMXOps [(0 : Int)] = true ∧
    (evalMXModel intMXOps identCtx [(100 : Int)] [[0], [7]] []).nfdirRun
      = 2 ∧
    (evalMXModel intMXOps identCtx [(100 : Int)] [[0], [7]] []).fsens.getD
      0 [] = [(5 : Int)] ∧
    (5 : Int) ≠ intMXOps.sparseZero (identCtx.outShape 0) := by decide

/-- C5 witness: the amended theorem applied to the identity function with
one all-empty forward and one all-empty adjoint direction. -/
theorem mx_empty_seed_skip_global_witness :
    mxSkipDirs intMXOps [[(0 : Int)]] = true ∧
    ((evalMXModel intMXOps identCtx [(100 : Int)] [[0]] [[0]]).nfdirRun
        = 0 ∧
      (evalMXModel intMXOps identCtx [(100 : Int)] [[0]] [[0]]).fsens
        = (List.range ([[(0 : Int)]] : List (List Int)).length).map (fun _ =>
            (List.range identCtx.outputv.length).map (fun i =>
              intMXOps.sparseZero (identCtx.outShape i)))) ∧
    ((evalMXModel intMXOps identCtx [(100 : Int)] [[0]] [[0]]).nadirRun
        = 0 ∧
      (evalMXModel intMXOps identCtx [(100 : Int)] [[0]] [[0]]).asens
        = (List.range ([[(0 : Int)]] : List (List Int)).length).map (fun _ =>
            (List.range identCtx.inputv.length).map (fun i =>
              intMXOps.sparseZero (identCtx.inShape i)))) :=
  ⟨by decide,
   (mx_empty_seed_skip_global intMXOps identCtx [(100 : Int)] [[0]]
     [[0]]).1 (by decide),
   (mx_empty_seed_skip_global intMXOps identCtx [(100 : Int)] [[0]]
     [[0]]).2 (by decide)⟩

end Casadi
